import Mathlib

/-!
# Verification of the running-dinner planning core

Shallow embedding of the solution encoding, decoding, initializers, raters and
the genetic optimizer of the `running-dinner` repository
(`src/planning/solution.py`, `initializer.py`, `rating.py`, `optimizer.py`),
together with theorems settling the specification claims.

Modelling conventions:
* Python `float` arithmetic is modelled by `ℚ` (exact arithmetic; every
  divergence proved below holds by a margin far larger than rounding error).
* Python exceptions (`AttributeError`, `ValueError`, `TypeError`,
  `ZeroDivisionError`) are modelled by `Except Unit`.
* RNG draws (`random.randint`, `random.shuffle`) are passed in explicitly as
  parameters, so a "run" of a randomized function is a pure function of the
  draws.
* Python list indexing inside the decoding / rating code is modelled with
  `List.getD` (with a junk default); every theorem below that depends on an
  index keeps it in range, where Python would otherwise raise.
-/

namespace RunningDinner

/-- `DinnerGroup` from `solution.py`: one hosting unit for one course. -/
structure DinnerGroup where
  cooking_team : Nat
  guest_indices : List Nat
deriving DecidableEq, Repr

/-- `Solution` from `solution.py`: for each course, the list of dinner groups. -/
structure Solution where
  groups_per_course : List (List DinnerGroup)
deriving DecidableEq, Repr

/-- Junk group used as `List.getD` default for Python indexing. -/
def junkGroup : DinnerGroup := ⟨0, []⟩

/-- `groups_per_course[c][g]` (Python raises when out of range; claims keep it in range). -/
def groupAt (rows : List (List DinnerGroup)) (c g : Nat) : DinnerGroup :=
  (rows.getD c []).getD g junkGroup

/-- Cooking team at `(c, g)`. -/
def cookAt (rows : List (List DinnerGroup)) (c g : Nat) : Nat :=
  (groupAt rows c g).cooking_team

/-!
## The (broken) structural equality of the source

`DinnerGroup.__eq__` is
`(self.cooking_team == other.cooking_team) and array_equal(self.groups_per_course, other.groups_per_course)`:
a `DinnerGroup` has no attribute `groups_per_course`, so whenever the cooking
teams agree the comparison raises `AttributeError`; otherwise the short-circuit
returns `False`.

`Solution.__eq__` is `array_equal(self.groups_per_course, other.groups_per_course)`
over object arrays: if the dimension profiles differ the shapes differ and
`array_equal` returns `False` without comparing elements; with equal
(rectangular) profiles numpy compares every aligned pair of groups with
`DinnerGroup.__eq__`, so the comparison raises iff some aligned pair has equal
cooking teams, and returns `False` otherwise (it can never return `True`).
-/

/-- Run of `DinnerGroup.__eq__`: `AttributeError` when cooking teams agree. -/
def dinnerGroupEqRun (a b : DinnerGroup) : Except Unit Bool :=
  if a.cooking_team = b.cooking_team then .error () else .ok false

/-- Whether two aligned course rows contain a pair of groups with equal cooking teams
(the pairs on which `DinnerGroup.__eq__` raises). -/
def rowsShareTeam (r1 r2 : List DinnerGroup) : Bool :=
  (r1.zip r2).any fun p => p.1.cooking_team = p.2.cooking_team

/-- Run of `Solution.__eq__` (see the comment block above). -/
def solutionEqRun (s1 s2 : Solution) : Except Unit Bool :=
  if s1.groups_per_course.map List.length = s2.groups_per_course.map List.length then
    if (s1.groups_per_course.zip s2.groups_per_course).any (fun p => rowsShareTeam p.1 p.2) then
      .error ()
    else .ok false
  else .ok false

/-- A tiny one-course solution used as a concrete evaluation point. -/
def demoSol : Solution := ⟨[[⟨0, []⟩]]⟩

/-!
## Decoding: `Solution.get_paths_per_host`

The Python function builds a `dict` mapping each cooking team to its path.
We model the dict as the list of `(key, value)` assignments in program order;
`dictLookup` returns the value of the *last* assignment to a key, which is
exactly Python's overwrite semantics (each key's list is fully built before the
next assignment, so intermediate appends never escape).
-/

/-- Path of the host of course 0 at group position `g` (lines 71-74 of
`solution.py`): its own team followed by the cooking teams at the *same group
position* in every later course. -/
def firstCoursePath (rows : List (List DinnerGroup)) (g : Nat) : List Nat :=
  cookAt rows 0 g :: (List.range (rows.length - 1)).map (fun k => cookAt rows (k + 1) g)

/-- Path entry of the host of course `c ≥ 1` at group position `g`, for course
`c2` (lines 83-98 of `solution.py`): its own team when `c2 = c`; otherwise the
code reads `guest_indices[gci]` from the group at `(c2, g)` — with
`gci = c` if `c < c2` else `c - 1` — and returns the cooking team at that index
in course `c2`'s group list. -/
def laterPathEntry (rows : List (List DinnerGroup)) (c g c2 : Nat) : Nat :=
  if c2 = c then cookAt rows c g
  else
    let gci := if c < c2 then c else c - 1
    let hostIndex := (groupAt rows c2 g).guest_indices.getD gci 0
    cookAt rows c2 hostIndex

/-- Full path of the host of course `c ≥ 1` at group position `g`. -/
def laterPath (rows : List (List DinnerGroup)) (c g : Nat) : List Nat :=
  (List.range rows.length).map (laterPathEntry rows c g)

/-- `Solution.get_paths_per_host`, as the list of dict assignments in program
order: first the course-0 hosts, then the hosts of every later course. -/
def getPathsPerHost (s : Solution) : List (Nat × List Nat) :=
  let rows := s.groups_per_course
  ((List.range (rows.getD 0 []).length).map fun g => (cookAt rows 0 g, firstCoursePath rows g))
    ++ ((List.range (rows.length - 1)).map (· + 1)).flatMap (fun c =>
        (List.range (rows.getD c []).length).map fun g => (cookAt rows c g, laterPath rows c g))

/-- Python-dict lookup: value of the last assignment to key `k`. -/
def dictLookup (l : List (Nat × List Nat)) (k : Nat) : Option (List Nat) :=
  match l.reverse.find? (fun p => p.1 = k) with
  | some p => some p.2
  | none => none

/-- All cooking teams of a solution, in reading order (courses, then groups). -/
def allCooks (s : Solution) : List Nat :=
  s.groups_per_course.flatMap (fun row => row.map DinnerGroup.cooking_team)

/-- Number of teams of a solution: each valid solution has one group per team. -/
def teamCount (s : Solution) : Nat := (allCooks s).length

/-- Number of parallel groups in each course (`meal_group_count`). -/
def groupCount (s : Solution) : Nat := (s.groups_per_course.getD 0 []).length

/-- Validity of a `Solution`, as assumed by the claims (and as produced by the
initializers and preserved by mutation): a nonempty rectangular course grid,
guest-index vectors of length `courses - 1` with entries indexing group
positions, and each team id occurring as `cooking_team` exactly once. -/
structure ValidSolution (s : Solution) : Prop where
  nonempty : s.groups_per_course ≠ []
  rect : ∀ row ∈ s.groups_per_course, row.length = groupCount s
  guestLen : ∀ row ∈ s.groups_per_course, ∀ gp ∈ row,
    gp.guest_indices.length = s.groups_per_course.length - 1
  guestRange : ∀ row ∈ s.groups_per_course, ∀ gp ∈ row, ∀ i ∈ gp.guest_indices, i < groupCount s
  cooksNodup : (allCooks s).Nodup

/-!
### Generic list lemmas used by the decoding proofs
-/

lemma getD_mem {α : Type _} {l : List α} {i : Nat} (d : α) (h : i < l.length) :
    l.getD i d ∈ l := by
  rw [List.getD_eq_getElem l d h]; exact List.getElem_mem h

lemma range_map_getD {α β : Type _} (l : List α) (f : α → β) (d : α) :
    (List.range l.length).map (fun i => f (l.getD i d)) = l.map f := by
  induction l with
  | nil => rfl
  | cons x xs ih =>
    rw [List.length_cons, List.range_succ_eq_map, List.map_cons, List.map_map, List.map_cons]
    have h1 : ((fun i => f ((x :: xs).getD i d)) ∘ (· + 1)) = fun i => f (xs.getD i d) := by
      funext i; simp
    rw [List.getD_cons_zero, h1, ih]

lemma range_flatMap_getD {α β : Type _} (l : List α) (F : α → List β) (d : α) :
    (List.range l.length).flatMap (fun i => F (l.getD i d)) = l.flatMap F := by
  rw [List.flatMap_def, range_map_getD l F d, List.flatMap_def]

lemma countP_range_unique {n c : Nat} {p : Nat → Bool} (hc : c < n)
    (h : ∀ i, i < n → (p i = true ↔ i = c)) : (List.range n).countP p = 1 := by
  induction n with
  | zero => omega
  | succ m ih =>
    rw [List.range_succ, List.countP_append]
    by_cases hcm : c = m
    · have h0 : (List.range m).countP p = 0 := by
        apply List.countP_eq_zero.2
        intro i hi
        rw [List.mem_range] at hi
        intro hp
        have := (h i (by omega)).1 hp
        omega
      have hpm : p m = true := (h m (by omega)).2 hcm.symm
      simp [h0, hpm]
    · have h1 : (List.range m).countP p = 1 := ih (by omega)
        (fun i hi => h i (by omega))
      have hpm : p m = false := by
        cases hp : p m with
        | false => rfl
        | true => exact absurd ((h m (by omega)).1 hp).symm hcm
      simp [h1, hpm]

lemma find?_of_nodup_keys {l : List (Nat × List Nat)} {k : Nat} {v : List Nat}
    (hn : (l.map Prod.fst).Nodup) (hm : (k, v) ∈ l) :
    l.find? (fun p => p.1 = k) = some (k, v) := by
  induction l with
  | nil => cases hm
  | cons a t ih =>
    rw [List.map_cons, List.nodup_cons] at hn
    rcases List.mem_cons.1 hm with h | h
    · subst h; exact List.find?_cons_of_pos _ (by simp)
    · have hak : a.1 ≠ k := by
        intro he
        exact hn.1 (he ▸ List.mem_map.2 ⟨(k, v), h, rfl⟩)
      rw [List.find?_cons_of_neg _ (by simpa using hak), ih hn.2 h]

lemma dictLookup_eq {l : List (Nat × List Nat)} {k : Nat} {v : List Nat}
    (hn : (l.map Prod.fst).Nodup) (hm : (k, v) ∈ l) : dictLookup l k = some v := by
  have hn' : (l.reverse.map Prod.fst).Nodup := by
    rw [List.map_reverse]
    exact List.nodup_reverse.2 hn
  unfold dictLookup
  rw [find?_of_nodup_keys hn' (List.mem_reverse.2 hm)]

/-!
### The keys of the decoded path map
-/

lemma keys_part1 (rows : List (List DinnerGroup)) :
    ((List.range (rows.getD 0 []).length).map
      (fun g => (cookAt rows 0 g, firstCoursePath rows g))).map Prod.fst
    = (rows.getD 0 []).map DinnerGroup.cooking_team := by
  rw [List.map_map]
  exact range_map_getD (rows.getD 0 []) DinnerGroup.cooking_team junkGroup

lemma keys_part2_inner (rows : List (List DinnerGroup)) (c : Nat) :
    ((List.range (rows.getD c []).length).map
      (fun g => (cookAt rows c g, laterPath rows c g))).map Prod.fst
    = (rows.getD c []).map DinnerGroup.cooking_team := by
  rw [List.map_map]
  exact range_map_getD (rows.getD c []) DinnerGroup.cooking_team junkGroup

/-- The dict keys produced by `get_paths_per_host`, in program order, are
exactly the cooking teams of the solution in reading order. -/
lemma keys_getPathsPerHost (s : Solution) :
    (getPathsPerHost s).map Prod.fst = allCooks s := by
  obtain ⟨rows⟩ := s
  show (((List.range (rows.getD 0 []).length).map
      (fun g => (cookAt rows 0 g, firstCoursePath rows g)))
    ++ ((List.range (rows.length - 1)).map (· + 1)).flatMap (fun c =>
        (List.range (rows.getD c []).length).map fun g =>
          (cookAt rows c g, laterPath rows c g))).map Prod.fst
    = rows.flatMap (fun row => row.map DinnerGroup.cooking_team)
  rw [List.map_append, keys_part1, List.map_flatMap]
  have h2 : ∀ cs : List Nat, cs.flatMap (fun c => ((List.range (rows.getD c []).length).map
        (fun g => (cookAt rows c g, laterPath rows c g))).map Prod.fst)
      = cs.flatMap (fun c => (rows.getD c []).map DinnerGroup.cooking_team) := by
    intro cs
    exact List.flatMap_congr (fun c _ => keys_part2_inner rows c)
  rw [h2]
  cases rows with
  | nil => rfl
  | cons r0 rest =>
    rw [show ((r0 :: rest : List (List DinnerGroup)).getD 0 []) = r0 from rfl,
        show ((r0 :: rest : List (List DinnerGroup)).length - 1) = rest.length from rfl,
        List.flatMap_map]
    have h3 : (fun a => ((r0 :: rest : List (List DinnerGroup)).getD (a + 1) []).map
          DinnerGroup.cooking_team)
        = fun k => (rest.getD k []).map DinnerGroup.cooking_team := by
      funext k; rfl
    rw [h3, range_flatMap_getD rest (fun row => row.map DinnerGroup.cooking_team) [],
        List.flatMap_cons]

/-!
### Per-entry facts about the decoded path map
-/

lemma firstCourse_entry_mem (s : Solution) {g : Nat} (hg : g < groupCount s) :
    (cookAt s.groups_per_course 0 g, firstCoursePath s.groups_per_course g)
      ∈ getPathsPerHost s := by
  unfold getPathsPerHost
  exact List.mem_append_left _ (List.mem_map.2 ⟨g, List.mem_range.2 hg, rfl⟩)

lemma later_entry_mem (s : Solution) {c g : Nat} (hc1 : 1 ≤ c)
    (hc : c < s.groups_per_course.length)
    (hg : g < (s.groups_per_course.getD c []).length) :
    (cookAt s.groups_per_course c g, laterPath s.groups_per_course c g)
      ∈ getPathsPerHost s := by
  unfold getPathsPerHost
  apply List.mem_append_right
  apply List.mem_flatMap.2
  refine ⟨c, List.mem_map.2 ⟨c - 1, List.mem_range.2 (by omega), by omega⟩,
    List.mem_map.2 ⟨g, List.mem_range.2 hg, rfl⟩⟩

/-- Two different `(course, group)` positions of a valid solution always hold
different cooking teams. -/
lemma cook_inj (s : Solution) (hv : ValidSolution s) {c1 g1 c2 g2 : Nat}
    (hc1 : c1 < s.groups_per_course.length) (hg1 : g1 < (s.groups_per_course.getD c1 []).length)
    (hc2 : c2 < s.groups_per_course.length) (hg2 : g2 < (s.groups_per_course.getD c2 []).length)
    (hne : c1 ≠ c2 ∨ g1 ≠ g2) :
    cookAt s.groups_per_course c1 g1 ≠ cookAt s.groups_per_course c2 g2 := by
  have hflat : (s.groups_per_course.map (fun row => row.map DinnerGroup.cooking_team)).flatten.Nodup := by
    have := hv.cooksNodup
    rwa [allCooks, List.flatMap_def] at this
  rw [List.nodup_flatten] at hflat
  by_cases hcc : c1 = c2
  · subst hcc
    rcases hne with h | h
    · omega
    · have hrow : (s.groups_per_course.getD c1 []).map DinnerGroup.cooking_team
          ∈ s.groups_per_course.map (fun row => row.map DinnerGroup.cooking_team) :=
        List.mem_map.2 ⟨_, getD_mem [] hc1, rfl⟩
      have hnod := hflat.1 _ hrow
      intro he
      have hlen : ((s.groups_per_course.getD c1 []).map DinnerGroup.cooking_team).length
          = (s.groups_per_course.getD c1 []).length := List.length_map _ _
      have hg1' : g1 < ((s.groups_per_course.getD c1 []).map DinnerGroup.cooking_team).length := by
        omega
      have hg2' : g2 < ((s.groups_per_course.getD c1 []).map DinnerGroup.cooking_team).length := by
        omega
      have he' : ((s.groups_per_course.getD c1 []).map DinnerGroup.cooking_team)[g1]
          = ((s.groups_per_course.getD c1 []).map DinnerGroup.cooking_team)[g2] := by
        rw [List.getElem_map, List.getElem_map]
        rw [cookAt, groupAt, cookAt, groupAt] at he
        rw [List.getD_eq_getElem _ junkGroup hg1, List.getD_eq_getElem _ junkGroup hg2] at he
        exact he
      exact h (hnod.getElem_inj_iff.1 he')
  · -- different courses: pairwise-disjoint course rows
    have hpair := hflat.2
    rw [List.pairwise_iff_get] at hpair
    have hlenmap : (s.groups_per_course.map (fun row => row.map DinnerGroup.cooking_team)).length
        = s.groups_per_course.length := List.length_map _ _
    have hmem1 : cookAt s.groups_per_course c1 g1
        ∈ (s.groups_per_course.getD c1 []).map DinnerGroup.cooking_team :=
      List.mem_map.2 ⟨_, getD_mem junkGroup hg1, rfl⟩
    have hmem2 : cookAt s.groups_per_course c2 g2
        ∈ (s.groups_per_course.getD c2 []).map DinnerGroup.cooking_team :=
      List.mem_map.2 ⟨_, getD_mem junkGroup hg2, rfl⟩
    have hgetm : ∀ c : Nat, (hc : c < s.groups_per_course.length) →
        (s.groups_per_course.map (fun row => row.map DinnerGroup.cooking_team)).get
            ⟨c, by simpa using hc⟩
        = (s.groups_per_course.getD c []).map DinnerGroup.cooking_team := by
      intro c hc
      rw [List.get_eq_getElem, List.getElem_map, List.getD_eq_getElem _ [] hc]
    intro he
    rcases Nat.lt_or_ge c1 c2 with hlt | hge
    · have hd := hpair ⟨c1, by omega⟩ ⟨c2, by omega⟩ hlt
      rw [hgetm c1 hc1, hgetm c2 hc2] at hd
      exact hd hmem1 (he ▸ hmem2)
    · have hlt' : c2 < c1 := by omega
      have hd := hpair ⟨c2, by omega⟩ ⟨c1, by omega⟩ hlt'
      rw [hgetm c2 hc2, hgetm c1 hc1] at hd
      exact hd hmem2 (he ▸ hmem1)

lemma row_len (s : Solution) (hv : ValidSolution s) {c : Nat}
    (hc : c < s.groups_per_course.length) :
    (s.groups_per_course.getD c []).length = groupCount s :=
  hv.rect _ (getD_mem [] hc)

lemma firstCoursePath_length (rows : List (List DinnerGroup)) (hne : rows ≠ []) (g : Nat) :
    (firstCoursePath rows g).length = rows.length := by
  have : rows.length ≠ 0 := fun h => hne (List.length_eq_zero.1 h)
  simp [firstCoursePath]
  omega

lemma laterPath_length (rows : List (List DinnerGroup)) (c g : Nat) :
    (laterPath rows c g).length = rows.length := by
  simp [laterPath]

lemma firstCoursePath_getElem_zero (rows : List (List DinnerGroup)) (g : Nat) :
    (firstCoursePath rows g)[0]? = some (cookAt rows 0 g) := by
  simp [firstCoursePath]

lemma laterPath_getElem (rows : List (List DinnerGroup)) {c : Nat} (g : Nat)
    {c2 : Nat} (hc2 : c2 < rows.length) :
    (laterPath rows c g)[c2]? = some (laterPathEntry rows c g c2) := by
  unfold laterPath
  rw [List.getElem?_map, List.getElem?_range hc2]
  rfl

lemma laterPathEntry_self (rows : List (List DinnerGroup)) (c g : Nat) :
    laterPathEntry rows c g c = cookAt rows c g := if_pos rfl

/-- For a valid solution, the path entry a later-course host gets for a
*different* course is a cooking team of that other course (at an in-range
group index), hence differs from the host's own team. -/
lemma laterPathEntry_ne (s : Solution) (hv : ValidSolution s) {c g c2 : Nat}
    (hc1 : 1 ≤ c) (hc : c < s.groups_per_course.length)
    (hc2 : c2 < s.groups_per_course.length) (hne : c2 ≠ c)
    (hg : g < groupCount s) :
    laterPathEntry s.groups_per_course c g c2 ≠ cookAt s.groups_per_course c g := by
  have hlen2 : (s.groups_per_course.getD c2 []).length = groupCount s := row_len s hv hc2
  have hlenc : (s.groups_per_course.getD c []).length = groupCount s := row_len s hv hc
  have hgrp : groupAt s.groups_per_course c2 g ∈ s.groups_per_course.getD c2 [] :=
    getD_mem junkGroup (by omega)
  have hglen : (groupAt s.groups_per_course c2 g).guest_indices.length
      = s.groups_per_course.length - 1 :=
    hv.guestLen _ (getD_mem [] hc2) _ hgrp
  have hgci : (if c < c2 then c else c - 1)
      < (groupAt s.groups_per_course c2 g).guest_indices.length := by
    rw [hglen]
    by_cases h : c < c2 <;> simp [h] <;> omega
  have hhost : (groupAt s.groups_per_course c2 g).guest_indices.getD (if c < c2 then c else c - 1) 0
      ∈ (groupAt s.groups_per_course c2 g).guest_indices := getD_mem 0 hgci
  have hhostlt : (groupAt s.groups_per_course c2 g).guest_indices.getD
      (if c < c2 then c else c - 1) 0 < groupCount s :=
    hv.guestRange _ (getD_mem [] hc2) _ hgrp _ hhost
  unfold laterPathEntry
  rw [if_neg hne]
  exact cook_inj s hv hc2 (by omega) hc (by omega) (Or.inl hne)

/-- **C2.** For every valid `Solution` (each team id occurring as
`cooking_team` exactly once, guest indices in range, guest vectors of length
`courses - 1`), `get_paths_per_host` returns a map with exactly `team_count`
distinct keys, each value a path of exactly `courses` host-team ids, and each
team's own id occurs in its own path exactly once, at the position of the
course it hosts. -/
theorem getPathsPerHost_correct (s : Solution) (hv : ValidSolution s) :
    ((getPathsPerHost s).map Prod.fst).Nodup ∧
    ((getPathsPerHost s).map Prod.fst).length = teamCount s ∧
    (∀ c g, c < s.groups_per_course.length → g < groupCount s →
      ∃ p, dictLookup (getPathsPerHost s) (cookAt s.groups_per_course c g) = some p ∧
        p.length = s.groups_per_course.length ∧
        p[c]? = some (cookAt s.groups_per_course c g) ∧
        p.count (cookAt s.groups_per_course c g) = 1) := by
  have hkeys := keys_getPathsPerHost s
  have hnodup : ((getPathsPerHost s).map Prod.fst).Nodup := by
    rw [hkeys]; exact hv.cooksNodup
  refine ⟨hnodup, by rw [hkeys]; rfl, ?_⟩
  intro c g hc hg
  have hrlen : (s.groups_per_course.getD c []).length = groupCount s := row_len s hv hc
  by_cases hc0 : c = 0
  · subst hc0
    refine ⟨firstCoursePath s.groups_per_course g,
      dictLookup_eq hnodup (firstCourse_entry_mem s hg), ?_,
      firstCoursePath_getElem_zero _ g, ?_⟩
    · exact firstCoursePath_length _ hv.nonempty g
    · rw [firstCoursePath, List.count_cons]
      have htail : ((List.range (s.groups_per_course.length - 1)).map
          (fun k => cookAt s.groups_per_course (k + 1) g)).count
            (cookAt s.groups_per_course 0 g) = 0 := by
        rw [List.count_eq_zero]
        intro hmem
        rcases List.mem_map.1 hmem with ⟨k, hk, hck⟩
        rw [List.mem_range] at hk
        have hk1 : k + 1 < s.groups_per_course.length := by omega
        exact cook_inj s hv hk1 (by rw [row_len s hv hk1]; omega) hc
          (by omega) (Or.inl (by omega)) hck
      rw [htail]
      simp
  · have hc1 : 1 ≤ c := by omega
    refine ⟨laterPath s.groups_per_course c g,
      dictLookup_eq hnodup (later_entry_mem s hc1 hc (by omega)), laterPath_length _ c g, ?_, ?_⟩
    · rw [laterPath_getElem _ g hc, laterPathEntry_self]
    · rw [laterPath, List.count_eq_countP, List.countP_map]
      apply countP_range_unique hc
      intro c2 hc2
      constructor
      · intro hp
        by_contra hne
        have hne' := laterPathEntry_ne s hv hc1 hc hc2 hne hg
        simp only [Function.comp] at hp
        rw [beq_iff_eq] at hp
        exact hne' hp
      · intro he
        subst he
        simp only [Function.comp]
        rw [beq_iff_eq]
        exact laterPathEntry_self _ _ _

/-!
### C8: the indirection formula of the decode loop

The spec describes the lookup for a host of course `c` at position `g` and
another course `c2` as reading `guest_indices[adjusted_index]` *from the group
at `(c, g)`*, with `adjusted_index = c2` if `c2 < c` else `c2 - 1`.  The code
(line 96 of `solution.py`) instead reads from the group at `(c2, g)`, with the
adjustment applied to `c` relative to `c2`.  `specPathEntry` below is the
spec's formula, written for the refutation; the code's formula is
`laterPathEntry` above.
-/

/-- The path-entry formula as the spec words it (claim C8): index taken from
the host's own group `(c, g)`, adjusted by comparing `c2` with `c`. -/
def specPathEntry (rows : List (List DinnerGroup)) (c g c2 : Nat) : Nat :=
  if c2 = c then cookAt rows c g
  else
    let adj := if c2 < c then c2 else c2 - 1
    let hostIndex := (groupAt rows c g).guest_indices.getD adj 0
    cookAt rows c2 hostIndex

/-- A concrete valid 3-course, 2-group solution on which the spec's formula
and the code disagree. -/
def c8Sol : Solution :=
  ⟨[[⟨10, [0, 0]⟩, ⟨11, [0, 0]⟩],
    [⟨20, [1, 0]⟩, ⟨21, [0, 0]⟩],
    [⟨30, [0, 0]⟩, ⟨31, [1, 1]⟩]]⟩

lemma c8Sol_valid : ValidSolution c8Sol := by
  refine ⟨?_, ?_, ?_, ?_, ?_⟩ <;> decide

/-- **C8, counterexample.** On `c8Sol`, team `20` hosts course `1` at group
position `0`; its decoded path entry for course `0` is `10`, whereas the
formula described by the claim (reading `guest_indices` from the group at
`(c, g)` with `adjusted_index = c2` if `c2 < c` else `c2 - 1`) yields `11`. -/
theorem c8_spec_formula_disagrees :
    ValidSolution c8Sol ∧
    cookAt c8Sol.groups_per_course 1 0 = 20 ∧
    dictLookup (getPathsPerHost c8Sol) 20 = some [10, 20, 30] ∧
    specPathEntry c8Sol.groups_per_course 1 0 0 = 11 ∧ (10 : Nat) ≠ 11 :=
  ⟨c8Sol_valid, rfl, by decide, by decide, by decide⟩

/-- **C8, amended.** For a valid solution, a team hosting course `c ≥ 1` at
group position `g` and any other course `c2`, the decoded path entry at `c2`
is obtained by reading `guest_indices[adjusted_index]` from the group at
`(c2, g)` — with `adjusted_index = c` if `c < c2` else `c - 1` — and taking
the cooking team at that index in course `c2`'s group list. -/
theorem decode_indirection_formula (s : Solution) (hv : ValidSolution s) (c g c2 : Nat)
    (hc1 : 1 ≤ c) (hc : c < s.groups_per_course.length) (hg : g < groupCount s)
    (hc2 : c2 < s.groups_per_course.length) (hne : c2 ≠ c) :
    ∃ p, dictLookup (getPathsPerHost s) (cookAt s.groups_per_course c g) = some p ∧
      p[c2]? = some (cookAt s.groups_per_course c2
        ((groupAt s.groups_per_course c2 g).guest_indices.getD
          (if c < c2 then c else c - 1) 0)) := by
  have hkeys := keys_getPathsPerHost s
  have hnodup : ((getPathsPerHost s).map Prod.fst).Nodup := by
    rw [hkeys]; exact hv.cooksNodup
  have hrlen : (s.groups_per_course.getD c []).length = groupCount s := row_len s hv hc
  refine ⟨laterPath s.groups_per_course c g,
    dictLookup_eq hnodup (later_entry_mem s hc1 hc (by omega)), ?_⟩
  rw [laterPath_getElem _ g hc2]
  unfold laterPathEntry
  rw [if_neg hne]

/-!
### C9: structural equality of solutions
-/

/-- **C9.** `Solution.__eq__` is *not* elementwise structural equality: on any
pair of solutions with equal dimension profiles and some aligned pair of equal
cooking teams — in particular on two structurally equal solutions such as
`demoSol` with itself — it raises `AttributeError` (because
`DinnerGroup.__eq__` reads the non-existent attribute `groups_per_course`),
and it can never return `True`. -/
theorem solution_eq_raises :
    solutionEqRun demoSol demoSol = .error () ∧
    dinnerGroupEqRun ⟨0, []⟩ ⟨0, []⟩ = .error () ∧
    ∀ s1 s2 : Solution, solutionEqRun s1 s2 ≠ .ok true := by
  refine ⟨rfl, rfl, ?_⟩
  intro s1 s2
  unfold solutionEqRun
  by_cases h1 : s1.groups_per_course.map List.length = s2.groups_per_course.map List.length
  · rw [if_pos h1]
    by_cases h2 : (s1.groups_per_course.zip s2.groups_per_course).any
        (fun p => rowsShareTeam p.1 p.2)
    · rw [if_pos h2]; intro h; cases h
    · rw [if_neg h2]; intro h; cases h
  · rw [if_neg h1]; intro h; cases h

/-- Witness instantiating the universally quantified part of
`solution_eq_raises` at a concrete pair. -/
theorem solution_eq_raises_witness :
    solutionEqRun demoSol ⟨[]⟩ ≠ .ok true :=
  solution_eq_raises.2.2 demoSol ⟨[]⟩

/-!
## Initializers (`initializer.py`)

`random.shuffle`'s outcome is passed in as the `shuffled` parameter of the
random initializer.  With `course_count = 0` Python raises
`ZeroDivisionError` at `team_count // course_count`; the theorems below keep
`course_count` positive.
-/

/-- `Solution.__init__` validation (lines 53-60 of `solution.py`): `TypeError`
on an empty course list or on any guest vector whose length is not
`courses - 1`. -/
def mkSolution (gpc : List (List DinnerGroup)) : Except Unit Solution :=
  if gpc.length = 0 then .error ()
  else if gpc.any (fun row => row.any
      (fun gp => gp.guest_indices.length ≠ gpc.length - 1)) then .error ()
  else .ok ⟨gpc⟩

/-- The course grid both initializers build: course `course` holds
`team_count / course_count` groups; the group at position `meal_group` gets
host id `ids[course * meal_group_count + meal_group]` (the running
`host_index`) and the placeholder guest vector
`[meal_group] * (course_count - 1)`. -/
def initGroups (ids : List Nat) (team_count course_count : Nat) : List (List DinnerGroup) :=
  (List.range course_count).map fun course =>
    (List.range (team_count / course_count)).map fun meal_group =>
      ⟨ids.getD (course * (team_count / course_count) + meal_group) 0,
       List.replicate (course_count - 1) meal_group⟩

/-- `RandomInitializer.create_initial_solution`, with the shuffled id vector
(`random_indices` after `random.shuffle`) passed in. -/
def randomInitializerRun (shuffled : List Nat) (team_count course_count : Nat) :
    Except Unit Solution :=
  mkSolution (initGroups shuffled team_count course_count)

/-- Indices `0 .. team_count-1` sorted by descending distance
(`sorted(unsorted_indices, key=lambda i: -dist[i])`, a stable sort). -/
def sortedIndices (dist : List ℚ) (team_count : Nat) : List Nat :=
  (List.range team_count).mergeSort (fun i j => dist.getD j 0 ≤ dist.getD i 0)

/-- `FinalLocationInitializer.create_initial_solution`: `ValueError` when
`team_count` differs from the distance vector's length, otherwise the same
grid as the random initializer over the sorted ids. -/
def finalLocationInitializerRun (dist : List ℚ) (team_count course_count : Nat) :
    Except Unit Solution :=
  if team_count ≠ dist.length then .error ()
  else mkSolution (initGroups (sortedIndices dist team_count) team_count course_count)

lemma initGroups_wellformed (ids : List Nat) (team_count course_count : Nat)
    (hcc : 0 < course_count) :
    mkSolution (initGroups ids team_count course_count)
      = .ok ⟨initGroups ids team_count course_count⟩ := by
  unfold mkSolution
  have hlen : (initGroups ids team_count course_count).length = course_count := by
    simp [initGroups]
  rw [if_neg (by omega)]
  have hany : (initGroups ids team_count course_count).any (fun row => row.any
      (fun gp => gp.guest_indices.length ≠ (initGroups ids team_count course_count).length - 1))
      = false := by
    rw [List.any_eq_false]
    intro row hrow
    intro hex
    rcases List.any_eq_true.1 hex with ⟨gp, hgp, hbad⟩
    rcases List.mem_map.1 hrow with ⟨course, _, hrow'⟩
    rcases List.mem_map.1 (hrow' ▸ hgp) with ⟨mg, _, hgp'⟩
    rw [← hgp', hlen] at hbad
    simp at hbad
  rw [hany]
  rw [if_neg (by simp)]

/-- **C5, counterexample.** With `team_count = 7` and `course_count = 3`
(non-divisible), neither initializer fails: both return a solution (with the
surplus team silently dropped). -/
theorem initializer_no_divisibility_error :
    7 % 3 ≠ 0 ∧
    (randomInitializerRun [0, 1, 2, 3, 4, 5, 6] 7 3).isOk = true ∧
    (finalLocationInitializerRun [0, 1, 2, 3, 4, 5, 6] 7 3).isOk = true := by
  refine ⟨by decide, ?_, ?_⟩
  · rw [randomInitializerRun, initGroups_wellformed _ _ _ (by omega)]
    rfl
  · rw [finalLocationInitializerRun, if_neg (by decide),
      initGroups_wellformed _ _ _ (by omega)]
    rfl

/-- **C5, amended.** Neither initializer checks divisibility of `team_count`
by `course_count`: for `course_count ≥ 1` the random initializer always
succeeds, and the final-location initializer fails exactly when the distance
vector's length differs from `team_count`; every produced solution has
`course_count` courses of `team_count / course_count` (floor) groups each. -/
theorem initializer_contract (shuffled : List Nat) (dist : List ℚ)
    (team_count course_count : Nat) (hcc : 0 < course_count) :
    (randomInitializerRun shuffled team_count course_count
        = .ok ⟨initGroups shuffled team_count course_count⟩) ∧
    ((finalLocationInitializerRun dist team_count course_count).isOk = false
        ↔ team_count ≠ dist.length) ∧
    (∀ ids s, mkSolution (initGroups ids team_count course_count) = .ok s →
      s.groups_per_course.length = course_count ∧
      ∀ row ∈ s.groups_per_course, row.length = team_count / course_count) := by
  refine ⟨initGroups_wellformed shuffled team_count course_count hcc, ?_, ?_⟩
  · unfold finalLocationInitializerRun
    by_cases h : team_count = dist.length
    · rw [if_neg (by omega), initGroups_wellformed _ _ _ hcc]
      simp [Except.isOk, Except.toBool, h]
    · rw [if_pos h]
      simp [Except.isOk, Except.toBool, h]
  · intro ids s hs
    rw [initGroups_wellformed _ _ _ hcc] at hs
    cases hs
    constructor
    · simp [initGroups]
    · intro row hrow
      rcases List.mem_map.1 hrow with ⟨course, _, hrow'⟩
      simp [← hrow']

/-- Witness for `initializer_contract` at a concrete non-divisible input. -/
theorem initializer_contract_witness :
    (randomInitializerRun [0, 1, 2, 3, 4] 5 2
        = .ok ⟨initGroups [0, 1, 2, 3, 4] 5 2⟩) ∧
    ((finalLocationInitializerRun [3, 1, 2] 5 2).isOk = false ↔ (5 : Nat) ≠ 3) := by
  have h := initializer_contract [0, 1, 2, 3, 4] [3, 1, 2] 5 2 (by omega)
  exact ⟨h.1, by simpa using h.2.1⟩

/-!
## Mutation (`GeneticOptimizer._mutate_solution`)

The function deep-copies the parent and performs either one host swap or a
series of guest-index swaps; the `random.randint` draws (after the retry
loops) are passed in as a `MutationDraw`.  Each Python assignment
`a[i] = <expr>` evaluates `<expr>` against the state *before* the store, which
the definitions below reproduce.  Out-of-range stores are modelled as no-ops
(`List.set` semantics); the draws' bounds keep every store in range.
-/

/-- `mutated_solution.groups_per_course[c][h].cooking_team = v`. -/
def setCook (rows : List (List DinnerGroup)) (c h v : Nat) : List (List DinnerGroup) :=
  rows.set c ((rows.getD c []).set h ⟨v, (groupAt rows c h).guest_indices⟩)

/-- `mutated_solution.groups_per_course[c][g].guest_indices[idx] = v`. -/
def setGuest (rows : List (List DinnerGroup)) (c g idx v : Nat) : List (List DinnerGroup) :=
  rows.set c ((rows.getD c []).set g
    ⟨(groupAt rows c g).cooking_team, (groupAt rows c g).guest_indices.set idx v⟩)

/-- Guest index stored at `(c, g, idx)`. -/
def guestAt (rows : List (List DinnerGroup)) (c g idx : Nat) : Nat :=
  (groupAt rows c g).guest_indices.getD idx 0

/-- Mutation 1 (lines 110-113 of `optimizer.py`): swap two cooking teams. -/
def hostSwapRun (rows : List (List DinnerGroup)) (c1 h1 c2 h2 : Nat) :
    List (List DinnerGroup) :=
  let temp := cookAt rows c1 h1
  let rows1 := setCook rows c1 h1 (cookAt rows c2 h2)
  setCook rows1 c2 h2 temp

/-- One guest-index swap (lines 128-131): the draw is
`(course, guest1, guest2, index)`. -/
def guestSwapRun (rows : List (List DinnerGroup)) (sw : Nat × Nat × Nat × Nat) :
    List (List DinnerGroup) :=
  let temp := guestAt rows sw.1 sw.2.1 sw.2.2.2
  let rows1 := setGuest rows sw.1 sw.2.1 sw.2.2.2 (guestAt rows sw.1 sw.2.2.1 sw.2.2.2)
  setGuest rows1 sw.1 sw.2.2.1 sw.2.2.2 temp

/-- The random draws of one `_mutate_solution` call: one host swap (chance
1/3) or between 1 and `meal_group_count` guest-index swaps (chance 2/3). -/
inductive MutationDraw where
  | hostSwap (c1 h1 c2 h2 : Nat)
  | guestSwaps (swaps : List (Nat × Nat × Nat × Nat))

/-- `GeneticOptimizer._mutate_solution` as a pure function of the draws (the
Python code operates on a deep copy, leaving the parent untouched). -/
def mutateSolutionRun (parent : Solution) : MutationDraw → Solution
  | .hostSwap c1 h1 c2 h2 => ⟨hostSwapRun parent.groups_per_course c1 h1 c2 h2⟩
  | .guestSwaps swaps => ⟨swaps.foldl guestSwapRun parent.groups_per_course⟩

/-- The constraints every draw satisfies by the `randint` bounds and the
retry loops of `_mutate_solution` (for a rectangular solution
`meal_group_count` bounds every row). -/
def DrawOK (rows : List (List DinnerGroup)) : MutationDraw → Prop
  | .hostSwap c1 h1 c2 h2 =>
      c1 < rows.length ∧ h1 < (rows.getD c1 []).length ∧
      c2 < rows.length ∧ h2 < (rows.getD c2 []).length ∧ (c1, h1) ≠ (c2, h2)
  | .guestSwaps swaps => ∀ sw ∈ swaps,
      sw.1 < rows.length ∧ sw.2.1 < (rows.getD sw.1 []).length ∧
      sw.2.2.1 < (rows.getD sw.1 []).length ∧ sw.2.1 ≠ sw.2.2.1 ∧
      sw.2.2.2 < rows.length - 1

/-- Dimension profile of a course grid: for each course, each group's
guest-vector length (so it also records the course count and group counts). -/
def dims (rows : List (List DinnerGroup)) : List (List Nat) :=
  rows.map (fun row => row.map (fun gp => gp.guest_indices.length))

/-- The guest-index column `idx` of course `c`. -/
def guestColumn (rows : List (List DinnerGroup)) (c idx : Nat) : List Nat :=
  (rows.getD c []).map (fun gp => gp.guest_indices.getD idx 0)

/-- All cooking teams, at the course-grid level (`allCooks` on the wrapped
solution). -/
def allCooksR (rows : List (List DinnerGroup)) : List Nat :=
  rows.flatMap (fun row => row.map DinnerGroup.cooking_team)

/-!
### Generic `List.set` helpers
-/

lemma set_getD_self {α : Type _} {l : List α} {i : Nat} (d : α) (h : i < l.length) :
    l.set i (l.getD i d) = l := by
  apply List.ext_getElem?
  intro n
  by_cases hn : i = n
  · subst hn
    rw [List.getElem?_set_self h, List.getD_eq_getElem l d h, List.getElem?_eq_getElem h]
  · exact List.getElem?_set_ne hn

lemma getD_set_ne {α : Type _} {l : List α} {i j : Nat} (hij : i ≠ j) (a d : α) :
    (l.set i a).getD j d = l.getD j d := by
  simp [List.getD, List.getElem?_set_ne hij]

lemma getD_set_self {α : Type _} {l : List α} {i : Nat} (h : i < l.length) (a d : α) :
    (l.set i a).getD i d = a := by
  simp [List.getD, List.getElem?_set_self h]

lemma getD_map_eq {α β : Type _} (l : List α) (f : α → β) {i : Nat} (d : α) (e : β)
    (hi : i < l.length) : (l.map f).getD i e = f (l.getD i d) := by
  rw [List.getD_eq_getElem _ e (by simpa using hi), List.getElem_map,
    List.getD_eq_getElem _ d hi]

/-- Replacing an element by one with the same `f`-image leaves `map f`
unchanged. -/
lemma map_set_eq_of_proj {α β : Type _} {l : List α} {g : Nat} {x' : α} {f : α → β} (d : α)
    (hg : g < l.length) (hproj : f x' = f (l.getD g d)) :
    (l.set g x').map f = l.map f := by
  rw [List.map_set]
  have h1 : f x' = (l.map f).getD g (f d) := by
    rw [hproj, getD_map_eq l f d (f d) hg]
  rw [h1, set_getD_self (f d) (by simpa using hg)]

lemma count_set_nat (l : List Nat) (i a b : Nat) (hi : i < l.length) :
    (l.set i a).count b + (if l.getD i 0 = b then 1 else 0)
      = l.count b + (if a = b then 1 else 0) := by
  rw [List.set_eq_take_cons_drop a hi]
  conv_rhs => rw [← List.take_append_drop i l, List.drop_eq_getElem_cons hi]
  rw [List.count_append, List.count_append, List.count_cons, List.count_cons,
    List.getD_eq_getElem l 0 hi]
  by_cases h1 : l[i] = b <;> by_cases h2 : a = b <;>
    simp [h1, h2] <;> omega

lemma sum_set_nat (L : List Nat) (i x : Nat) (hi : i < L.length) :
    (L.set i x).sum + L.getD i 0 = L.sum + x := by
  rw [List.set_eq_take_cons_drop x hi]
  conv_rhs => rw [← List.take_append_drop i L, List.drop_eq_getElem_cons hi]
  rw [List.sum_append, List.sum_append, List.sum_cons, List.sum_cons,
    List.getD_eq_getElem L 0 hi]
  omega

/-- Swapping two positions of a list of naturals is a permutation. -/
lemma perm_set_swap (L : List Nat) (i j : Nat) (hi : i < L.length) (hj : j < L.length)
    (hij : i ≠ j) :
    ((L.set i (L.getD j 0)).set j (L.getD i 0)).Perm L := by
  rw [List.perm_iff_count]
  intro b
  have h1 := count_set_nat L i (L.getD j 0) b hi
  have h2 := count_set_nat (L.set i (L.getD j 0)) j (L.getD i 0) b (by simpa using hj)
  rw [getD_set_ne hij] at h2
  by_cases hA : L.getD i 0 = b <;> by_cases hB : L.getD j 0 = b <;>
    simp [hA, hB] at h1 h2 ⊢ <;> omega

/-!
### The effect of the primitive stores
-/

lemma allCooksR_count (rows : List (List DinnerGroup)) (b : Nat) :
    (allCooksR rows).count b
      = (rows.map (fun row => (row.map DinnerGroup.cooking_team).count b)).sum := by
  rw [allCooksR, List.flatMap_def, List.count_flatten, List.map_map]
  rfl

lemma count_allCooksR_set_row (rows : List (List DinnerGroup)) (c : Nat)
    (newRow : List DinnerGroup) (hc : c < rows.length) (b : Nat) :
    (allCooksR (rows.set c newRow)).count b
        + ((rows.getD c []).map DinnerGroup.cooking_team).count b
      = (allCooksR rows).count b + (newRow.map DinnerGroup.cooking_team).count b := by
  rw [allCooksR_count, allCooksR_count, List.map_set]
  have hs := sum_set_nat (rows.map (fun row => (row.map DinnerGroup.cooking_team).count b))
    c ((newRow.map DinnerGroup.cooking_team).count b) (by simpa using hc)
  rw [getD_map_eq rows _ [] 0 hc] at hs
  omega

lemma count_allCooksR_setCook (rows : List (List DinnerGroup)) (c h v : Nat)
    (hc : c < rows.length) (hh : h < (rows.getD c []).length) (b : Nat) :
    (allCooksR (setCook rows c h v)).count b + (if cookAt rows c h = b then 1 else 0)
      = (allCooksR rows).count b + (if v = b then 1 else 0) := by
  unfold setCook
  have h1 := count_allCooksR_set_row rows c
    ((rows.getD c []).set h ⟨v, (groupAt rows c h).guest_indices⟩) hc b
  have h2 : (((rows.getD c []).set h ⟨v, (groupAt rows c h).guest_indices⟩).map
      DinnerGroup.cooking_team)
      = ((rows.getD c []).map DinnerGroup.cooking_team).set h v := by
    rw [List.map_set]
  have h3 := count_set_nat ((rows.getD c []).map DinnerGroup.cooking_team) h v b
    (by simpa using hh)
  rw [getD_map_eq (rows.getD c []) _ junkGroup 0 hh] at h3
  rw [h2] at h1
  have hca : cookAt rows c h
      = DinnerGroup.cooking_team ((rows.getD c []).getD h junkGroup) := rfl
  rw [hca]
  omega

lemma cookAt_setCook_ne (rows : List (List DinnerGroup)) {c h : Nat} (v : Nat) {c' h' : Nat}
    (hne : (c, h) ≠ (c', h')) :
    cookAt (setCook rows c h v) c' h' = cookAt rows c' h' := by
  unfold cookAt groupAt setCook
  by_cases hc : c = c'
  · subst hc
    by_cases hcl : c < rows.length
    · rw [getD_set_self hcl]
      have hh' : h ≠ h' := fun he => hne (by rw [he])
      rw [getD_set_ne hh']
    · rw [List.set_eq_of_length_le (by omega)]
  · rw [getD_set_ne hc]

lemma length_setCook (rows : List (List DinnerGroup)) (c h v : Nat) :
    (setCook rows c h v).length = rows.length := by
  unfold setCook; simp

lemma rowlen_setCook (rows : List (List DinnerGroup)) (c h v c' : Nat) :
    ((setCook rows c h v).getD c' []).length = (rows.getD c' []).length := by
  unfold setCook
  by_cases hcc : c = c'
  · subst hcc
    by_cases hcl : c < rows.length
    · rw [getD_set_self hcl]; simp
    · rw [List.set_eq_of_length_le (by omega)]
  · rw [getD_set_ne hcc]

lemma dims_setCook (rows : List (List DinnerGroup)) {c h : Nat} (v : Nat)
    (hc : c < rows.length) (hh : h < (rows.getD c []).length) :
    dims (setCook rows c h v) = dims rows := by
  unfold dims setCook
  exact map_set_eq_of_proj [] hc (map_set_eq_of_proj junkGroup hh rfl)

lemma guestColumn_setCook (rows : List (List DinnerGroup)) {c h : Nat} (v : Nat)
    (c' idx : Nat) (hc : c < rows.length) (hh : h < (rows.getD c []).length) :
    guestColumn (setCook rows c h v) c' idx = guestColumn rows c' idx := by
  unfold guestColumn setCook
  by_cases hcc : c = c'
  · subst hcc
    rw [getD_set_self hc]
    exact map_set_eq_of_proj junkGroup hh rfl
  · rw [getD_set_ne hcc]

lemma hostSwap_cooks_perm (rows : List (List DinnerGroup)) {c1 h1 c2 h2 : Nat}
    (hc1 : c1 < rows.length) (hh1 : h1 < (rows.getD c1 []).length)
    (hc2 : c2 < rows.length) (hh2 : h2 < (rows.getD c2 []).length)
    (hne : (c1, h1) ≠ (c2, h2)) :
    (allCooksR (hostSwapRun rows c1 h1 c2 h2)).Perm (allCooksR rows) := by
  rw [List.perm_iff_count]
  intro b
  simp only [hostSwapRun]
  have e1 := count_allCooksR_setCook rows c1 h1 (cookAt rows c2 h2) hc1 hh1 b
  have e2 := count_allCooksR_setCook (setCook rows c1 h1 (cookAt rows c2 h2)) c2 h2
    (cookAt rows c1 h1)
    (by rw [length_setCook]; exact hc2) (by rw [rowlen_setCook]; exact hh2) b
  rw [cookAt_setCook_ne rows _ hne] at e2
  by_cases hA : cookAt rows c1 h1 = b <;> by_cases hB : cookAt rows c2 h2 = b <;>
    simp only [hA, hB, if_pos, if_neg, if_true, if_false] at e1 e2 ⊢ <;> omega

lemma length_setGuest (rows : List (List DinnerGroup)) (c g idx v : Nat) :
    (setGuest rows c g idx v).length = rows.length := by
  unfold setGuest; simp

lemma rowlen_setGuest (rows : List (List DinnerGroup)) (c g idx v c' : Nat) :
    ((setGuest rows c g idx v).getD c' []).length = (rows.getD c' []).length := by
  unfold setGuest
  by_cases hcc : c = c'
  · subst hcc
    by_cases hcl : c < rows.length
    · rw [getD_set_self hcl]; simp
    · rw [List.set_eq_of_length_le (by omega)]
  · rw [getD_set_ne hcc]

lemma dims_setGuest (rows : List (List DinnerGroup)) {c g : Nat} (idx v : Nat)
    (hc : c < rows.length) (hg : g < (rows.getD c []).length) :
    dims (setGuest rows c g idx v) = dims rows := by
  unfold dims setGuest
  refine map_set_eq_of_proj [] hc (map_set_eq_of_proj junkGroup hg ?_)
  simp [groupAt]

lemma allCooksR_setGuest (rows : List (List DinnerGroup)) {c g : Nat} (idx v : Nat)
    (hc : c < rows.length) (hg : g < (rows.getD c []).length) :
    allCooksR (setGuest rows c g idx v) = allCooksR rows := by
  unfold allCooksR setGuest
  rw [List.flatMap_def, List.flatMap_def]
  exact congrArg List.flatten (map_set_eq_of_proj [] hc (map_set_eq_of_proj junkGroup hg rfl))

lemma guestColumn_setGuest_other_course (rows : List (List DinnerGroup)) {c c' : Nat}
    (g idx v idx' : Nat) (hcc : c ≠ c') :
    guestColumn (setGuest rows c g idx v) c' idx' = guestColumn rows c' idx' := by
  unfold guestColumn setGuest
  rw [getD_set_ne hcc]

lemma guestColumn_setGuest_other_idx (rows : List (List DinnerGroup)) {c g : Nat}
    {idx idx' : Nat} (v : Nat) (hc : c < rows.length) (hg : g < (rows.getD c []).length)
    (hii : idx ≠ idx') :
    guestColumn (setGuest rows c g idx v) c idx' = guestColumn rows c idx' := by
  unfold guestColumn setGuest
  rw [getD_set_self hc]
  refine map_set_eq_of_proj junkGroup hg ?_
  show ((groupAt rows c g).guest_indices.set idx v).getD idx' 0 = _
  rw [getD_set_ne hii]
  rfl

lemma guestColumn_setGuest_same (rows : List (List DinnerGroup)) {c g idx : Nat} (v : Nat)
    (hc : c < rows.length) (hg : g < (rows.getD c []).length)
    (hidx : idx < (groupAt rows c g).guest_indices.length) :
    guestColumn (setGuest rows c g idx v) c idx = (guestColumn rows c idx).set g v := by
  unfold guestColumn setGuest
  rw [getD_set_self hc, List.map_set]
  exact congrArg _ (getD_set_self hidx v 0)

lemma guestAt_eq_column (rows : List (List DinnerGroup)) {c g : Nat} (idx : Nat)
    (hg : g < (rows.getD c []).length) :
    guestAt rows c g idx = (guestColumn rows c idx).getD g 0 := by
  unfold guestAt guestColumn
  rw [getD_map_eq _ _ junkGroup 0 hg]
  rfl

/-!
### Transferring bounds across a dimension-preserving step
-/

lemma length_of_dims_eq {rows rows' : List (List DinnerGroup)} (h : dims rows' = dims rows) :
    rows'.length = rows.length := by
  have := congrArg List.length h
  simpa [dims] using this

lemma row_length_of_dims_eq {rows rows' : List (List DinnerGroup)}
    (h : dims rows' = dims rows) (c : Nat) :
    ((rows'.getD c []).length) = (rows.getD c []).length := by
  have hl : rows'.length = rows.length := length_of_dims_eq h
  by_cases hc : c < rows.length
  · have h1 : (dims rows').getD c [] = (dims rows).getD c [] := by rw [h]
    rw [dims, dims, getD_map_eq rows' _ [] [] (by omega), getD_map_eq rows _ [] [] hc] at h1
    have := congrArg List.length h1
    simpa using this
  · rw [List.getD_eq_default _ _ (by omega), List.getD_eq_default _ _ (by omega)]

lemma uniform_of_dims_eq {rows rows' : List (List DinnerGroup)} (h : dims rows' = dims rows)
    (hgl : ∀ row ∈ rows, ∀ gp ∈ row, gp.guest_indices.length = rows.length - 1) :
    ∀ row ∈ rows', ∀ gp ∈ row, gp.guest_indices.length = rows'.length - 1 := by
  intro row hrow gp hgp
  have hl : rows'.length = rows.length := length_of_dims_eq h
  rcases List.mem_iff_getElem.1 hrow with ⟨c, hc, hrc⟩
  rcases List.mem_iff_getElem.1 hgp with ⟨g, hg, hgg⟩
  have hrow' : rows'.getD c [] = row := by
    rw [List.getD_eq_getElem _ [] hc, hrc]
  have hg' : g < (rows'.getD c []).length := by rw [hrow']; omega
  have e1 : gp.guest_indices.length = ((dims rows').getD c []).getD g 0 := by
    rw [dims, getD_map_eq rows' _ [] [] hc,
      getD_map_eq (rows'.getD c []) _ junkGroup 0 hg', hrow']
    rw [List.getD_eq_getElem _ junkGroup (by omega), hgg]
  have hc2 : c < rows.length := by omega
  have hg2 : g < (rows.getD c []).length := by
    rw [← row_length_of_dims_eq h c]; exact hg'
  have e2 : ((rows.getD c []).getD g junkGroup).guest_indices.length
      = ((dims rows).getD c []).getD g 0 := by
    rw [dims, getD_map_eq rows _ [] [] hc2,
      getD_map_eq (rows.getD c []) _ junkGroup 0 hg2]
  have e3 : gp.guest_indices.length
      = ((rows.getD c []).getD g junkGroup).guest_indices.length := by
    rw [e1, e2, h]
  rw [e3, hl]
  exact hgl _ (getD_mem [] hc2) _ (getD_mem junkGroup hg2)

/-!
### One guest swap, then the whole swap sequence
-/

lemma guestSwap_step (rows : List (List DinnerGroup)) (sw : Nat × Nat × Nat × Nat)
    (hgl : ∀ row ∈ rows, ∀ gp ∈ row, gp.guest_indices.length = rows.length - 1)
    (hc : sw.1 < rows.length) (hg1 : sw.2.1 < (rows.getD sw.1 []).length)
    (hg2 : sw.2.2.1 < (rows.getD sw.1 []).length) (hgg : sw.2.1 ≠ sw.2.2.1)
    (hidx : sw.2.2.2 < rows.length - 1) :
    dims (guestSwapRun rows sw) = dims rows ∧
    allCooksR (guestSwapRun rows sw) = allCooksR rows ∧
    ∀ c idx, (guestColumn (guestSwapRun rows sw) c idx).Perm (guestColumn rows c idx) := by
  obtain ⟨c, g1, g2, idx⟩ := sw
  dsimp only at hc hg1 hg2 hgg hidx
  simp only [guestSwapRun]
  set v2 := guestAt rows c g2 idx with hv2
  set temp := guestAt rows c g1 idx with htemp
  set rows1 := setGuest rows c g1 idx v2 with hrows1
  have hc1 : c < rows1.length := by rw [hrows1, length_setGuest]; exact hc
  have hg2' : g2 < (rows1.getD c []).length := by rw [hrows1, rowlen_setGuest]; exact hg2
  have hidx1 : idx < (groupAt rows c g1).guest_indices.length := by
    have h := hgl _ (getD_mem [] hc) _ (getD_mem junkGroup hg1)
    unfold groupAt
    omega
  have hidx2 : idx < (groupAt rows1 c g2).guest_indices.length := by
    have heq : groupAt rows1 c g2 = groupAt rows c g2 := by
      rw [hrows1]
      unfold groupAt setGuest
      rw [getD_set_self hc, getD_set_ne hgg]
    have h := hgl _ (getD_mem [] hc) _ (getD_mem junkGroup hg2)
    rw [heq]
    unfold groupAt
    omega
  have hdims : dims (setGuest rows1 c g2 idx temp) = dims rows := by
    rw [dims_setGuest rows1 idx temp hc1 hg2', hrows1, dims_setGuest rows idx v2 hc hg1]
  refine ⟨hdims, ?_, ?_⟩
  · rw [allCooksR_setGuest rows1 idx temp hc1 hg2', hrows1,
      allCooksR_setGuest rows idx v2 hc hg1]
  · intro c' idx'
    by_cases hcc : c = c'
    · subst hcc
      by_cases hii : idx = idx'
      · subst hii
        rw [guestColumn_setGuest_same rows1 temp hc1 hg2' hidx2, hrows1,
          guestColumn_setGuest_same rows v2 hc hg1 hidx1]
        have hcol1 : v2 = (guestColumn rows c idx).getD g2 0 := by
          rw [hv2]; exact guestAt_eq_column rows idx hg2
        have hcol2 : temp = (guestColumn rows c idx).getD g1 0 := by
          rw [htemp]; exact guestAt_eq_column rows idx hg1
        rw [hcol1, hcol2]
        exact perm_set_swap (guestColumn rows c idx) g1 g2
          (by rw [guestColumn]; simpa using hg1) (by rw [guestColumn]; simpa using hg2) hgg
      · rw [guestColumn_setGuest_other_idx rows1 temp hc1 hg2' hii, hrows1,
          guestColumn_setGuest_other_idx rows v2 hc hg1 hii]
    · rw [guestColumn_setGuest_other_course rows1 g2 idx temp idx' hcc, hrows1,
        guestColumn_setGuest_other_course rows g1 idx v2 idx' hcc]

lemma guestSwaps_foldl (swaps : List (Nat × Nat × Nat × Nat)) :
    ∀ rows : List (List DinnerGroup),
    (∀ row ∈ rows, ∀ gp ∈ row, gp.guest_indices.length = rows.length - 1) →
    (∀ sw ∈ swaps,
      sw.1 < rows.length ∧ sw.2.1 < (rows.getD sw.1 []).length ∧
      sw.2.2.1 < (rows.getD sw.1 []).length ∧ sw.2.1 ≠ sw.2.2.1 ∧
      sw.2.2.2 < rows.length - 1) →
    dims (swaps.foldl guestSwapRun rows) = dims rows ∧
    allCooksR (swaps.foldl guestSwapRun rows) = allCooksR rows ∧
    ∀ c idx, (guestColumn (swaps.foldl guestSwapRun rows) c idx).Perm
      (guestColumn rows c idx) := by
  induction swaps with
  | nil => exact fun rows _ _ => ⟨rfl, rfl, fun c idx => List.Perm.refl _⟩
  | cons sw rest ih =>
    intro rows hgl hok
    obtain ⟨hc, hg1, hg2, hgg, hidx⟩ := hok sw (List.mem_cons_self sw rest)
    have hstep := guestSwap_step rows sw hgl hc hg1 hg2 hgg hidx
    have hlen : (guestSwapRun rows sw).length = rows.length :=
      length_of_dims_eq hstep.1
    have hrest := ih (guestSwapRun rows sw)
      (uniform_of_dims_eq hstep.1 hgl)
      (by
        intro sw' hsw'
        obtain ⟨a1, a2, a3, a4, a5⟩ := hok sw' (List.mem_cons_of_mem sw hsw')
        rw [row_length_of_dims_eq hstep.1]
        exact ⟨by omega, a2, a3, a4, by omega⟩)
    rw [List.foldl_cons]
    refine ⟨hrest.1.trans hstep.1, hrest.2.1.trans hstep.2.1, fun c idx => ?_⟩
    exact (hrest.2.2 c idx).trans (hstep.2.2 c idx)

/-- A solution whose dimensions, cooking-team multiset and guest-index columns
match those of a valid solution is itself valid. -/
lemma valid_of_preserved {s s' : Solution}
    (hdims : dims s'.groups_per_course = dims s.groups_per_course)
    (hcooks : (allCooks s').Perm (allCooks s))
    (hcols : ∀ c idx, (guestColumn s'.groups_per_course c idx).Perm
      (guestColumn s.groups_per_course c idx))
    (hv : ValidSolution s) : ValidSolution s' := by
  have hlen : s'.groups_per_course.length = s.groups_per_course.length :=
    length_of_dims_eq hdims
  have hrl : ∀ c, (s'.groups_per_course.getD c []).length
      = (s.groups_per_course.getD c []).length :=
    row_length_of_dims_eq hdims
  have hgc : groupCount s' = groupCount s := hrl 0
  have hnz : s.groups_per_course.length ≠ 0 :=
    fun h => hv.nonempty (List.length_eq_zero.1 h)
  refine ⟨?_, ?_, ?_, ?_, ?_⟩
  · intro h
    have h0 : s'.groups_per_course.length = 0 := by rw [h]; rfl
    omega
  · intro row hrow
    rcases List.mem_iff_getElem.1 hrow with ⟨c, hcb, hrc⟩
    have h1 : row.length = (s'.groups_per_course.getD c []).length := by
      rw [List.getD_eq_getElem _ [] hcb, hrc]
    rw [h1, hrl c, hgc]
    exact hv.rect _ (getD_mem [] (by omega))
  · exact uniform_of_dims_eq hdims hv.guestLen
  · intro row hrow gp hgp i hi
    rcases List.mem_iff_getElem.1 hrow with ⟨c, hcb, hrc⟩
    rcases List.mem_iff_getElem.1 hi with ⟨idx, hidxb, hidxv⟩
    have hrow' : s'.groups_per_course.getD c [] = row := by
      rw [List.getD_eq_getElem _ [] hcb, hrc]
    have himem : i ∈ guestColumn s'.groups_per_course c idx := by
      rw [guestColumn, hrow']
      refine List.mem_map.2 ⟨gp, hgp, ?_⟩
      rw [List.getD_eq_getElem _ 0 hidxb, hidxv]
    have himem2 : i ∈ guestColumn s.groups_per_course c idx :=
      ((hcols c idx).mem_iff).1 himem
    rcases List.mem_map.1 himem2 with ⟨gp0, hgp0, hgp0v⟩
    have hc2 : c < s.groups_per_course.length := by omega
    have hlen0 : gp0.guest_indices.length = s.groups_per_course.length - 1 :=
      hv.guestLen _ (getD_mem [] hc2) _ hgp0
    have hidxlt : idx < s.groups_per_course.length - 1 := by
      have := uniform_of_dims_eq hdims hv.guestLen _ hrow _ hgp
      omega
    have hi0 : i ∈ gp0.guest_indices := by
      rw [← hgp0v]
      exact getD_mem 0 (by omega)
    have hr := hv.guestRange _ (getD_mem [] hc2) _ hgp0 _ hi0
    rw [hgc]
    exact hr
  · exact (hcooks.nodup_iff).2 hv.cooksNodup

/-- **C10.** For every parent solution (with the constructor's guest-length
invariant) and every draw of the mutation RNG (within the `randint` bounds and
retry-loop guarantees), the child produced by `_mutate_solution` has the same
dimension profile as the parent, the same multiset of cooking teams over the
whole solution, and, for each course and guest-column position, the same
multiset of guest indices in that column; hence it maps valid solutions to
valid solutions. -/
theorem mutate_solution_preserves (parent : Solution) (d : MutationDraw)
    (hgl : ∀ row ∈ parent.groups_per_course, ∀ gp ∈ row,
      gp.guest_indices.length = parent.groups_per_course.length - 1)
    (hd : DrawOK parent.groups_per_course d) :
    dims (mutateSolutionRun parent d).groups_per_course = dims parent.groups_per_course ∧
    (allCooks (mutateSolutionRun parent d)).Perm (allCooks parent) ∧
    (∀ c idx, (guestColumn (mutateSolutionRun parent d).groups_per_course c idx).Perm
      (guestColumn parent.groups_per_course c idx)) ∧
    (ValidSolution parent → ValidSolution (mutateSolutionRun parent d)) := by
  have hmain :
      dims (mutateSolutionRun parent d).groups_per_course = dims parent.groups_per_course ∧
      (allCooks (mutateSolutionRun parent d)).Perm (allCooks parent) ∧
      (∀ c idx, (guestColumn (mutateSolutionRun parent d).groups_per_course c idx).Perm
        (guestColumn parent.groups_per_course c idx)) := by
    cases d with
    | hostSwap c1 h1 c2 h2 =>
      obtain ⟨hc1, hh1, hc2, hh2, hne⟩ := hd
      show dims (hostSwapRun parent.groups_per_course c1 h1 c2 h2) = _ ∧ _ ∧ _
      set rows := parent.groups_per_course with hrows
      have hc2' : c2 < (setCook rows c1 h1 (cookAt rows c2 h2)).length := by
        rw [length_setCook]; exact hc2
      have hh2' : h2 < ((setCook rows c1 h1 (cookAt rows c2 h2)).getD c2 []).length := by
        rw [rowlen_setCook]; exact hh2
      refine ⟨?_, hostSwap_cooks_perm rows hc1 hh1 hc2 hh2 hne, ?_⟩
      · show dims (setCook (setCook rows c1 h1 (cookAt rows c2 h2)) c2 h2 (cookAt rows c1 h1))
            = dims rows
        rw [dims_setCook _ _ hc2' hh2', dims_setCook _ _ hc1 hh1]
      · intro c idx
        show (guestColumn (setCook (setCook rows c1 h1 (cookAt rows c2 h2)) c2 h2
            (cookAt rows c1 h1)) c idx).Perm _
        rw [guestColumn_setCook _ _ c idx hc2' hh2', guestColumn_setCook _ _ c idx hc1 hh1]
    | guestSwaps swaps =>
      have h := guestSwaps_foldl swaps parent.groups_per_course hgl hd
      refine ⟨h.1, ?_, fun c idx => h.2.2 c idx⟩
      show (allCooksR (swaps.foldl guestSwapRun parent.groups_per_course)).Perm
        (allCooksR parent.groups_per_course)
      rw [h.2.1]
  exact ⟨hmain.1, hmain.2.1, hmain.2.2,
    fun hv => valid_of_preserved hmain.1 hmain.2.1 hmain.2.2 hv⟩

/-- Witness for `getPathsPerHost_correct` at the concrete valid solution
`c8Sol`. -/
theorem getPathsPerHost_correct_witness :
    ((getPathsPerHost c8Sol).map Prod.fst).Nodup ∧
    ((getPathsPerHost c8Sol).map Prod.fst).length = teamCount c8Sol ∧
    (∀ c g, c < c8Sol.groups_per_course.length → g < groupCount c8Sol →
      ∃ p, dictLookup (getPathsPerHost c8Sol) (cookAt c8Sol.groups_per_course c g) = some p ∧
        p.length = c8Sol.groups_per_course.length ∧
        p[c]? = some (cookAt c8Sol.groups_per_course c g) ∧
        p.count (cookAt c8Sol.groups_per_course c g) = 1) :=
  getPathsPerHost_correct c8Sol (by refine ⟨?_, ?_, ?_, ?_, ?_⟩ <;> decide)

/-- Witness for `decode_indirection_formula` at `c8Sol`, host of course 1 at
position 0, other course 0. -/
theorem decode_indirection_formula_witness :
    ∃ p, dictLookup (getPathsPerHost c8Sol) (cookAt c8Sol.groups_per_course 1 0) = some p ∧
      p[0]? = some (cookAt c8Sol.groups_per_course 0
        ((groupAt c8Sol.groups_per_course 0 0).guest_indices.getD
          (if 1 < 0 then 1 else 1 - 1) 0)) :=
  decode_indirection_formula c8Sol (by refine ⟨?_, ?_, ?_, ?_, ?_⟩ <;> decide) 1 0 0
    (by decide) (by decide) (by decide) (by decide) (by decide)

/-- Witness for `mutate_solution_preserves`: a concrete host swap on `c8Sol`. -/
theorem mutate_solution_preserves_witness :
    dims (mutateSolutionRun c8Sol (.hostSwap 0 0 1 1)).groups_per_course
        = dims c8Sol.groups_per_course ∧
    (allCooks (mutateSolutionRun c8Sol (.hostSwap 0 0 1 1))).Perm (allCooks c8Sol) ∧
    (∀ c idx,
      (guestColumn (mutateSolutionRun c8Sol (.hostSwap 0 0 1 1)).groups_per_course c idx).Perm
        (guestColumn c8Sol.groups_per_course c idx)) ∧
    (ValidSolution c8Sol → ValidSolution (mutateSolutionRun c8Sol (.hostSwap 0 0 1 1))) :=
  mutate_solution_preserves c8Sol (.hostSwap 0 0 1 1) (by decide)
    ⟨by decide, by decide, by decide, by decide, by decide⟩

/-!
## The genetic optimizer (`GeneticOptimizer`, `optimizer.py`)

Scores (Python floats in `[0, 1]`) are modelled as `ℚ`.  The RNG-dependent
parts — the mutated and scored children of one `_create_new_generation` call,
and the per-iteration children of `optimize` — are passed in as explicit
candidate lists.  `random` never fails, so this is the only abstraction; the
control flow, the ordered-insert logic and the (exception-raising) solution
comparisons are modelled faithfully.
-/

def ROUNDS_WITHOUT_CHANGE_TO_BREAK : Nat := 3

def MAX_ITERATIONS : Nat := 50

/-- `SolutionWithScore` from `solution.py`. -/
structure SolutionWithScore where
  solution : Solution
  score : ℚ
deriving DecidableEq

/-- Junk element for (always in-range) Python list indexing. -/
def defaultSWS : SolutionWithScore := ⟨⟨[]⟩, 0⟩

/-- The scan loop of `_insert_into_generation_list` (lines 143-147): starting
from `current_score = sys.maxsize`, advance `i` while the previously read
score is at least the candidate's; the first comparison always succeeds
(scores are in `[0, 1]`, far below `sys.maxsize`).  The result is the final
value of `i`. -/
def scanIndex : List SolutionWithScore → ℚ → Nat
  | [], _ => 0
  | x :: xs, s => if x.score < s then 1 else 1 + scanIndex xs s

/-- Python `list.insert(n, a)` (appends when `n ≥ len`). -/
def insertAt {α : Type _} : List α → Nat → α → List α
  | l, 0, a => a :: l
  | [], _ + 1, a => [a]
  | x :: xs, n + 1, a => x :: insertAt xs n a

/-- `GeneticOptimizer._insert_into_generation_list` (lines 134-159): scan for
the insertion point, compare against the entry just before it with the
(exception-raising) `Solution.__eq__`, then either insert at `i - 1` and pop
the last entry, or leave the list unchanged.  Returns the updated list and
the Python return value. -/
def insertIntoGenerationList (l : List SolutionWithScore) (sol : SolutionWithScore) :
    Except Unit (List SolutionWithScore × Bool) :=
  let i := scanIndex l sol.score
  if 0 < i then
    match solutionEqRun sol.solution ((l.getD (i - 1) defaultSWS).solution) with
    | .error () => .error ()
    | .ok true => .ok (l, false)
    | .ok false =>
      if i < l.length then .ok ((insertAt l (i - 1) sol).dropLast, true)
      else .ok (l, false)
  else
    if i < l.length then .ok ((insertAt l (i - 1) sol).dropLast, true)
    else .ok (l, false)

/-- `GeneticOptimizer._create_new_generation` (lines 161-179): starting from a
deep copy of the previous generation, offer every mutated-and-scored child to
the population in order.  The children (`5 × len(prev_gen)` of them in the
Python code) are passed in as `candidates`. -/
def createNewGeneration (prevGen : List SolutionWithScore)
    (candidates : List SolutionWithScore) : Except Unit (List SolutionWithScore) :=
  candidates.foldlM (fun gen c => (insertIntoGenerationList gen c).map Prod.fst) prevGen

/-- The iteration of `GeneticOptimizer.optimize` (lines 59-70): build the next
generation, compare its best against the previous best with the
(exception-raising) `Solution.__eq__`, break once the stall counter has
already reached `ROUNDS_WITHOUT_CHANGE_TO_BREAK`, else increment or reset it.
The first argument is the remaining number of iterations. -/
def optimizeLoop : Nat → List (List SolutionWithScore) → Solution → Nat →
    List SolutionWithScore → Except Unit (List SolutionWithScore)
  | 0, _, _, _, gen => .ok gen
  | fuel + 1, cands, lastBest, ncs, gen =>
    match createNewGeneration gen (cands.headD []) with
    | .error () => .error ()
    | .ok gen' =>
      match solutionEqRun lastBest ((gen'.getD 0 defaultSWS).solution) with
      | .error () => .error ()
      | .ok b =>
        if b then
          if ROUNDS_WITHOUT_CHANGE_TO_BREAK ≤ ncs then .ok gen'
          else optimizeLoop fuel cands.tail ((gen'.getD 0 defaultSWS).solution) (ncs + 1) gen'
        else optimizeLoop fuel cands.tail ((gen'.getD 0 defaultSWS).solution) 0 gen'

/-- `GeneticOptimizer.optimize` after the initial generation has been built:
`last_best_solution = current_generation[0].solution; no_changes_since = 0`,
then up to `MAX_ITERATIONS` iterations. -/
def optimizeRun (cands : List (List SolutionWithScore))
    (gen0 : List SolutionWithScore) : Except Unit (List SolutionWithScore) :=
  optimizeLoop MAX_ITERATIONS cands ((gen0.getD 0 defaultSWS).solution) 0 gen0

/-- Three tiny pairwise team-disjoint solutions for concrete optimizer runs. -/
def solT0 : Solution := ⟨[[⟨0, []⟩]]⟩

def solT1 : Solution := ⟨[[⟨1, []⟩]]⟩

def solT2 : Solution := ⟨[[⟨2, []⟩]]⟩

/-- **C3, counterexample.** Population `[(solT0, 3/4), (solT1, 1/4)]`, child
`(solT2, 1/2)`: the child beats the (last) member `solT1` and equals no
member structurally, yet `_insert_into_generation_list` leaves the population
unmodified and returns `False` — the scan runs off the end of the list, so a
child that only beats the worst member is never inserted. -/
theorem insert_skips_last_only_winner :
    insertIntoGenerationList [⟨solT0, 3/4⟩, ⟨solT1, 1/4⟩] ⟨solT2, 1/2⟩
        = .ok ([⟨solT0, 3/4⟩, ⟨solT1, 1/4⟩], false) ∧
    (1 / 4 : ℚ) < 1 / 2 ∧ solT2 ≠ solT0 ∧ solT2 ≠ solT1 :=
  ⟨by norm_num [insertIntoGenerationList, scanIndex, solutionEqRun, rowsShareTeam,
      solT0, solT1, solT2, defaultSWS],
    by norm_num, by decide, by decide⟩

/-!
### Properties of the scan loop and of `list.insert`
-/

lemma scanIndex_pos {l : List SolutionWithScore} (h : l ≠ []) (s : ℚ) :
    0 < scanIndex l s := by
  cases l with
  | nil => exact absurd rfl h
  | cons x xs => unfold scanIndex; split <;> omega

lemma scanIndex_le_length (l : List SolutionWithScore) (s : ℚ) :
    scanIndex l s ≤ l.length := by
  induction l with
  | nil => simp [scanIndex]
  | cons x xs ih =>
    unfold scanIndex
    split <;> simp [List.length_cons] <;> omega

lemma scanIndex_prefix_ge (l : List SolutionWithScore) (s : ℚ) :
    ∀ k, k + 1 < scanIndex l s → s ≤ (l.getD k defaultSWS).score := by
  induction l with
  | nil => intro k hk; simp [scanIndex] at hk
  | cons x xs ih =>
    intro k hk
    unfold scanIndex at hk
    by_cases hx : x.score < s
    · rw [if_pos hx] at hk; omega
    · rw [if_neg hx] at hk
      cases k with
      | zero => simpa using le_of_not_lt hx
      | succ k' => exact ih k' (by omega)

lemma scanIndex_stop (l : List SolutionWithScore) (s : ℚ)
    (h : scanIndex l s < l.length) :
    (l.getD (scanIndex l s - 1) defaultSWS).score < s := by
  induction l with
  | nil => simp [scanIndex] at h
  | cons x xs ih =>
    unfold scanIndex at h ⊢
    by_cases hx : x.score < s
    · rw [if_pos hx] at h ⊢
      simpa using hx
    · rw [if_neg hx] at h ⊢
      have h2 : scanIndex xs s < xs.length := by
        simp only [List.length_cons] at h; omega
      have hxs : xs ≠ [] := by
        intro he; subst he; simp [scanIndex] at h2
      have hp : 0 < scanIndex xs s := scanIndex_pos hxs s
      have he : 1 + scanIndex xs s - 1 = (scanIndex xs s - 1) + 1 := by omega
      rw [he, List.getD_cons_succ]
      exact ih h2

lemma scanIndex_lt_iff (l : List SolutionWithScore) (s : ℚ) :
    scanIndex l s < l.length ↔ l.dropLast.any (fun x => x.score < s) = true := by
  induction l with
  | nil => simp [scanIndex]
  | cons x xs ih =>
    cases xs with
    | nil =>
      unfold scanIndex
      constructor
      · intro h
        split at h <;> simp at h <;> omega
      · intro h; simp at h
    | cons y ys =>
      unfold scanIndex
      rw [List.dropLast_cons₂, List.any_cons]
      by_cases hx : x.score < s
      · rw [if_pos hx]
        simp only [List.length_cons, decide_eq_true hx, Bool.true_or]
        constructor
        · intro _; trivial
        · intro _; omega
      · rw [if_neg hx]
        simp only [List.length_cons, decide_eq_false hx, Bool.false_or]
        rw [← ih]
        simp only [List.length_cons]
        omega

lemma insertAt_length {α : Type _} (l : List α) (n : Nat) (a : α) :
    (insertAt l n a).length = l.length + 1 := by
  induction l generalizing n with
  | nil => cases n <;> rfl
  | cons x xs ih =>
    cases n with
    | zero => rfl
    | succ n' => simp [insertAt, ih n']

lemma insertAt_eq_take_drop {α : Type _} (l : List α) (n : Nat) (a : α)
    (hn : n ≤ l.length) :
    insertAt l n a = l.take n ++ a :: l.drop n := by
  induction l generalizing n with
  | nil =>
    cases n with
    | zero => rfl
    | succ n' => simp at hn
  | cons x xs ih =>
    cases n with
    | zero => rfl
    | succ n' =>
      simp only [insertAt, List.take_succ_cons, List.drop_succ_cons, List.cons_append,
        List.cons.injEq, true_and]
      exact ih n' (by simpa using hn)

lemma insertAt_getD_zero {α : Type _} (l : List α) (n : Nat) (a d : α)
    (hn : 0 < n) (hl : l ≠ []) :
    (insertAt l n a).getD 0 d = l.getD 0 d := by
  cases l with
  | nil => exact absurd rfl hl
  | cons x xs =>
    cases n with
    | zero => omega
    | succ n' => rfl

lemma getD_zero_dropLast {α : Type _} (l : List α) (d : α) (h : 2 ≤ l.length) :
    l.dropLast.getD 0 d = l.getD 0 d := by
  cases l with
  | nil => simp at h
  | cons x xs =>
    cases xs with
    | nil => simp at h
    | cons y ys => rfl

lemma sorted_drop_le (l : List SolutionWithScore)
    (hs : l.Pairwise (fun a b => b.score ≤ a.score)) {k : Nat} (hk : k < l.length) :
    ∀ b ∈ l.drop k, b.score ≤ (l.getD k defaultSWS).score := by
  intro b hb
  rcases List.mem_iff_getElem.1 hb with ⟨j, hj, hbj⟩
  rw [List.getD_eq_getElem _ _ hk]
  have hjlen : k + j < l.length := by
    rw [List.length_drop] at hj; omega
  have hdg : (l.drop k)[j] = l[k + j] := List.getElem_drop ..
  rw [hdg] at hbj
  subst hbj
  rcases Nat.lt_or_ge 0 j with hj0 | hj0
  · exact (List.pairwise_iff_getElem.1 hs) k (k + j) hk hjlen (by omega)
  · have hj0' : j = 0 := by omega
    subst hj0'
    exact le_refl _

/-- **C3, amended.** When a scored child is offered to a sorted nonempty
population, and the duplicate comparison (which itself can raise) returns
`False`, the child is inserted **exactly when its score beats some member
other than the last one** — a child that only beats the current worst is
discarded.  On insertion it is placed before the first lower-scored entry,
the last entry is evicted, the length is unchanged, the list stays sorted
best-first, and the best score does not decrease; otherwise the population is
returned unmodified with `False`. -/
theorem insert_into_generation_characterization
    (l : List SolutionWithScore) (sol : SolutionWithScore)
    (hsorted : l.Pairwise (fun a b => b.score ≤ a.score))
    (hne : l ≠ [])
    (heq : solutionEqRun sol.solution
      ((l.getD (scanIndex l sol.score - 1) defaultSWS).solution) = .ok false) :
    insertIntoGenerationList l sol
      = .ok (if l.dropLast.any (fun x => x.score < sol.score)
            then (insertAt l (scanIndex l sol.score - 1) sol).dropLast else l,
          l.dropLast.any (fun x => x.score < sol.score)) ∧
    ((insertAt l (scanIndex l sol.score - 1) sol).dropLast.length = l.length) ∧
    (l.dropLast.any (fun x => x.score < sol.score) = true →
      (insertAt l (scanIndex l sol.score - 1) sol).dropLast.Pairwise
        (fun a b => b.score ≤ a.score) ∧
      (l.getD 0 defaultSWS).score
        ≤ ((insertAt l (scanIndex l sol.score - 1) sol).dropLast.getD 0 defaultSWS).score) := by
  have hpos : 0 < scanIndex l sol.score := scanIndex_pos hne sol.score
  have hle : scanIndex l sol.score ≤ l.length := scanIndex_le_length l sol.score
  refine ⟨?_, ?_, ?_⟩
  · unfold insertIntoGenerationList
    rw [if_pos hpos, heq]
    cases hany : l.dropLast.any (fun x => x.score < sol.score) with
    | true =>
      have hlt : scanIndex l sol.score < l.length := (scanIndex_lt_iff l sol.score).2 hany
      rw [if_pos hlt]
      simp
    | false =>
      have hnlt : ¬ scanIndex l sol.score < l.length := by
        intro hlt
        rw [(scanIndex_lt_iff l sol.score).1 hlt] at hany
        cases hany
      rw [if_neg hnlt]
      simp
  · rw [List.length_dropLast, insertAt_length]
    omega
  · intro hany
    have hlt : scanIndex l sol.score < l.length := (scanIndex_lt_iff l sol.score).2 hany
    have hstop := scanIndex_stop l sol.score hlt
    have hpref := scanIndex_prefix_ge l sol.score
    have hins : insertAt l (scanIndex l sol.score - 1) sol
        = l.take (scanIndex l sol.score - 1) ++ sol :: l.drop (scanIndex l sol.score - 1) :=
      insertAt_eq_take_drop l _ sol (by omega)
    have hdrople := sorted_drop_le l hsorted (k := scanIndex l sol.score - 1) (by omega)
    constructor
    · apply List.Pairwise.sublist (List.dropLast_sublist _)
      rw [hins, List.pairwise_append]
      refine ⟨List.Pairwise.sublist (List.take_sublist _ _) hsorted, ?_, ?_⟩
      · rw [List.pairwise_cons]
        refine ⟨?_, List.Pairwise.sublist (List.drop_sublist _ _) hsorted⟩
        intro b hb
        exact le_of_lt (lt_of_le_of_lt (hdrople b hb) hstop)
      · intro a ha b hb
        have has : sol.score ≤ a.score := by
          rcases List.mem_iff_getElem.1 ha with ⟨k, hk, hak⟩
          have hk2 : k < scanIndex l sol.score - 1 := by
            rw [List.length_take] at hk; omega
          have hkl : k < l.length := by omega
          have htk : (l.take (scanIndex l sol.score - 1))[k] = l[k] :=
            List.getElem_take ..
          rw [htk] at hak
          have := hpref k (by omega)
          rw [List.getD_eq_getElem _ _ hkl] at this
          rw [hak] at this
          exact this
        rcases List.mem_cons.1 hb with rfl | hb'
        · exact has
        · exact le_trans (le_of_lt (lt_of_le_of_lt (hdrople b hb') hstop)) has
    · have hlen2 : 2 ≤ (insertAt l (scanIndex l sol.score - 1) sol).length := by
        rw [insertAt_length]; omega
      rw [getD_zero_dropLast _ _ hlen2]
      by_cases hone : scanIndex l sol.score = 1
      · have h0 : (l.getD 0 defaultSWS).score < sol.score := by
          have := hstop
          rw [hone] at this
          simpa using this
        rw [hone]
        show (l.getD 0 defaultSWS).score ≤ ((insertAt l 0 sol).getD 0 defaultSWS).score
        have : insertAt l 0 sol = sol :: l := by cases l <;> rfl
        rw [this]
        exact le_of_lt h0
      · rw [insertAt_getD_zero l _ sol defaultSWS (by omega) hne]

/-- Concrete sorted two-member population and a child that beats its best. -/
def c3Gen : List SolutionWithScore := [⟨solT0, 1 / 4⟩, ⟨solT1, 1 / 8⟩]

def c3Sol : SolutionWithScore := ⟨solT2, 1 / 2⟩

/-- Witness for `insert_into_generation_characterization` on `c3Gen`/`c3Sol`
(the child beats a non-last member, so it is inserted). -/
theorem insert_into_generation_characterization_witness :
    insertIntoGenerationList c3Gen c3Sol
      = .ok (if c3Gen.dropLast.any (fun x => x.score < c3Sol.score)
            then (insertAt c3Gen (scanIndex c3Gen c3Sol.score - 1) c3Sol).dropLast else c3Gen,
          c3Gen.dropLast.any (fun x => x.score < c3Sol.score)) ∧
    ((insertAt c3Gen (scanIndex c3Gen c3Sol.score - 1) c3Sol).dropLast.length
      = c3Gen.length) ∧
    (c3Gen.dropLast.any (fun x => x.score < c3Sol.score) = true →
      (insertAt c3Gen (scanIndex c3Gen c3Sol.score - 1) c3Sol).dropLast.Pairwise
        (fun a b => b.score ≤ a.score) ∧
      (c3Gen.getD 0 defaultSWS).score
        ≤ ((insertAt c3Gen (scanIndex c3Gen c3Sol.score - 1) c3Sol).dropLast.getD 0
            defaultSWS).score) :=
  insert_into_generation_characterization c3Gen c3Sol
    (by norm_num [c3Gen, List.pairwise_cons])
    (by simp [c3Gen])
    (by norm_num [c3Gen, c3Sol, scanIndex, solutionEqRun, rowsShareTeam, defaultSWS,
      solT0, solT2])

/-!
### C1: the best score never decreases
-/

lemma insert_head_mono {l : List SolutionWithScore} {sol : SolutionWithScore}
    {l' : List SolutionWithScore} {b : Bool}
    (h : insertIntoGenerationList l sol = .ok (l', b)) :
    (l.getD 0 defaultSWS).score ≤ (l'.getD 0 defaultSWS).score := by
  unfold insertIntoGenerationList at h
  by_cases hpos : 0 < scanIndex l sol.score
  · rw [if_pos hpos] at h
    cases heqr : solutionEqRun sol.solution
        ((l.getD (scanIndex l sol.score - 1) defaultSWS).solution) with
    | error e =>
      cases e
      rw [heqr] at h
      simp at h
    | ok bv =>
      rw [heqr] at h
      cases bv with
      | true =>
        simp at h
        rw [h.1]
      | false =>
        by_cases hlt : scanIndex l sol.score < l.length
        · rw [if_pos hlt] at h
          simp at h
          rw [← h.1]
          have hne : l ≠ [] := by
            intro he; subst he
            simp [scanIndex] at hpos
          have hlen2 : 2 ≤ (insertAt l (scanIndex l sol.score - 1) sol).length := by
            rw [insertAt_length]
            cases l with
            | nil => exact absurd rfl hne
            | cons x xs => simp
          rw [getD_zero_dropLast _ _ hlen2]
          by_cases hone : scanIndex l sol.score = 1
          · have h0 : (l.getD 0 defaultSWS).score < sol.score := by
              have := scanIndex_stop l sol.score hlt
              rw [hone] at this
              simpa using this
            rw [hone]
            have hi : insertAt l 0 sol = sol :: l := by cases l <;> rfl
            show (l.getD 0 defaultSWS).score ≤ ((insertAt l 0 sol).getD 0 defaultSWS).score
            rw [hi]
            exact le_of_lt h0
          · rw [insertAt_getD_zero l _ sol defaultSWS (by omega) hne]
        · rw [if_neg hlt] at h
          simp at h
          rw [h.1]
  · rw [if_neg hpos] at h
    have hl : l = [] := by
      cases l with
      | nil => rfl
      | cons x xs => exact absurd (scanIndex_pos (by simp) sol.score) hpos
    subst hl
    simp at h
    rw [h.1]

lemma createNewGeneration_head_mono (cands : List SolutionWithScore) :
    ∀ gen gen' : List SolutionWithScore, createNewGeneration gen cands = .ok gen' →
      (gen.getD 0 defaultSWS).score ≤ (gen'.getD 0 defaultSWS).score := by
  induction cands with
  | nil =>
    intro gen gen' h
    rw [createNewGeneration, List.foldlM_nil] at h
    cases h
    exact le_refl _
  | cons c cs ih =>
    intro gen gen' h
    rw [createNewGeneration, List.foldlM_cons] at h
    cases hstep : insertIntoGenerationList gen c with
    | error e =>
      cases e
      rw [hstep] at h
      simp [Except.map, Except.bind, Bind.bind] at h
    | ok p =>
      rw [hstep] at h
      have h2 : createNewGeneration p.1 cs = .ok gen' := by
        rw [createNewGeneration]
        simpa [Except.map, Except.bind, Bind.bind] using h
      exact le_trans
        (insert_head_mono (show insertIntoGenerationList gen c = .ok (p.1, p.2) from hstep))
        (ih p.1 gen' h2)

lemma optimizeLoop_head_mono (fuel : Nat) :
    ∀ (cands : List (List SolutionWithScore)) (lastBest : Solution) (ncs : Nat)
      (gen genF : List SolutionWithScore),
      optimizeLoop fuel cands lastBest ncs gen = .ok genF →
      (gen.getD 0 defaultSWS).score ≤ (genF.getD 0 defaultSWS).score := by
  induction fuel with
  | zero =>
    intro cands lastBest ncs gen genF h
    rw [optimizeLoop] at h
    cases h
    exact le_refl _
  | succ f ih =>
    intro cands lastBest ncs gen genF h
    rw [optimizeLoop] at h
    cases hcg : createNewGeneration gen (cands.headD []) with
    | error e =>
      cases e
      rw [hcg] at h
      simp at h
    | ok gen' =>
      rw [hcg] at h
      dsimp only at h
      have hmono := createNewGeneration_head_mono (cands.headD []) gen gen' hcg
      cases heq2 : solutionEqRun lastBest ((gen'.getD 0 defaultSWS).solution) with
      | error e =>
        cases e
        rw [heq2] at h
        simp at h
      | ok b =>
        rw [heq2] at h
        dsimp only at h
        cases b with
        | true =>
          by_cases hn : ROUNDS_WITHOUT_CHANGE_TO_BREAK ≤ ncs
          · rw [if_pos rfl, if_pos hn] at h
            cases h
            exact hmono
          · rw [if_pos rfl, if_neg hn] at h
            exact le_trans hmono (ih _ _ _ _ _ h)
        | false =>
          rw [if_neg (by simp)] at h
          exact le_trans hmono (ih _ _ _ _ _ h)

/-- **C1.** The best (index 0) score of the population never decreases: every
completed `_create_new_generation` call returns a population whose best score
is at least the previous generation's best, and a completed `optimize` loop
returns a population whose best score is at least the initial generation's
best. -/
theorem best_score_monotone :
    (∀ (gen cands gen' : List SolutionWithScore),
      createNewGeneration gen cands = .ok gen' →
      (gen.getD 0 defaultSWS).score ≤ (gen'.getD 0 defaultSWS).score) ∧
    (∀ (cands : List (List SolutionWithScore)) (gen0 genF : List SolutionWithScore),
      optimizeRun cands gen0 = .ok genF →
      (gen0.getD 0 defaultSWS).score ≤ (genF.getD 0 defaultSWS).score) :=
  ⟨fun gen cands gen' h => createNewGeneration_head_mono cands gen gen' h,
   fun cands gen0 genF h => optimizeLoop_head_mono MAX_ITERATIONS cands _ 0 gen0 genF h⟩

/-- Witness for `best_score_monotone`: one no-candidate generation step, and a
full 50-iteration run on the empty population (whose best-vs-best comparison
is the one comparison `Solution.__eq__` happens not to raise on). -/
theorem best_score_monotone_witness :
    ((([⟨solT0, 1 / 2⟩] : List SolutionWithScore).getD 0 defaultSWS).score
      ≤ (([⟨solT0, 1 / 2⟩] : List SolutionWithScore).getD 0 defaultSWS).score) ∧
    ((([] : List SolutionWithScore).getD 0 defaultSWS).score
      ≤ (([] : List SolutionWithScore).getD 0 defaultSWS).score) :=
  ⟨best_score_monotone.1 [⟨solT0, 1 / 2⟩] [] [⟨solT0, 1 / 2⟩] rfl,
   best_score_monotone.2 [] [] [] (by rfl)⟩

/-!
### C4: the early-exit rule of `optimize`
-/

/-- **C4 (code bug).** The stall-detection comparison
`last_best_solution == current_generation[0].solution` crashes instead of
counting unchanged generations: on a population whose best survives one
generation step (here: the single candidate scores below everyone and is
rejected), the loop raises `AttributeError` (modelled as `.error ()`) in its
very first iteration, because comparing the unchanged best with itself runs
the broken `DinnerGroup.__eq__`.  The loop can therefore never perform the
claimed three-stall early exit. -/
theorem optimize_stall_comparison_raises :
    createNewGeneration [⟨solT0, 1 / 2⟩, ⟨solT1, 1 / 4⟩] [⟨solT2, 0⟩]
        = .ok [⟨solT0, 1 / 2⟩, ⟨solT1, 1 / 4⟩] ∧
    solutionEqRun solT0 solT0 = .error () ∧
    optimizeRun (List.replicate MAX_ITERATIONS [⟨solT2, 0⟩])
        [⟨solT0, 1 / 2⟩, ⟨solT1, 1 / 4⟩] = .error () := by
  have h1 : createNewGeneration [⟨solT0, 1 / 2⟩, ⟨solT1, 1 / 4⟩] [⟨solT2, 0⟩]
      = .ok [⟨solT0, 1 / 2⟩, ⟨solT1, 1 / 4⟩] := by
    norm_num [createNewGeneration, insertIntoGenerationList, scanIndex, solutionEqRun,
      rowsShareTeam, solT0, solT1, solT2, defaultSWS, Except.map, List.foldlM]
  refine ⟨h1, rfl, ?_⟩
  show optimizeLoop (49 + 1) _ _ 0 _ = .error ()
  rw [optimizeLoop]
  have hhead : (List.replicate MAX_ITERATIONS [(⟨solT2, 0⟩ : SolutionWithScore)]).headD []
      = [⟨solT2, 0⟩] := rfl
  rw [hhead, h1]
  rfl

/-!
## Raters (`rating.py`)

`rate_solution` receives `paths_per_host`; the diversity rater iterates
`range(len(paths_per_host))` and indexes the dict with those integers, so the
team ids must be exactly `0 .. n-1`; accordingly the raters are modelled over
the list of paths indexed by team id.  The distance raters iterate the dict's
values, and only sum over them, so a list of paths is again faithful.
-/

/-- `len(Counter(p1) & Counter(p2))` (line 77): `Counter` intersection keeps
the keys whose minimum count is positive, and `len` counts *distinct* keys —
so this is the number of distinct values occurring in both lists. -/
def counterInterLen (p1 p2 : List Nat) : Nat :=
  (p1.dedup.filter (fun x => p2.contains x)).length

/-- The overlap total of `DiversitySolutionRater.rate_solution`
(lines 72-81): for every ordered pair of distinct team indices, add
`len(intersections) - 1` whenever `len(intersections) > 1`. -/
def diversityOverlaps (paths : List (List Nat)) : Nat :=
  ((List.range paths.length).map (fun t1 =>
    ((List.range paths.length).map (fun t2 =>
      if t1 ≠ t2 then
        if 1 < counterInterLen (paths.getD t1 []) (paths.getD t2 [])
        then counterInterLen (paths.getD t1 []) (paths.getD t2 []) - 1
        else 0
      else 0)).sum)).sum

/-- `DiversitySolutionRater.rate_solution` (lines 64-90).  The variable
`teams_per_course_count` in the source holds `len(paths_per_host)` — the
*total* team count.  (Python raises `ZeroDivisionError` when
`maximum_overlaps` is 0, i.e. for one-course inputs; `ℚ` division by zero
yields 0 there.) -/
def diversityRate (paths : List (List Nat)) : ℚ :=
  let course_count := (paths.getD 0 []).length
  let teams_per_course_count := paths.length
  let maximum_overlaps := (course_count - 1) * (course_count - 1) * teams_per_course_count
  (1 - (diversityOverlaps paths : ℚ) / (maximum_overlaps : ℚ)) ^ 2

/-- The overlap total as the spec words it: the *multiset* intersection size
(sum of minimum multiplicities). -/
def specMultisetInterLen (p1 p2 : List Nat) : Nat :=
  (p1.dedup.map (fun x => min (p1.count x) (p2.count x))).sum

/-- The diversity rater as the claim describes it: multiset intersection
sizes, normalized by `(courses-1)^2 * teams_per_course` with
`teams_per_course = team_count / courses`. -/
def specDiversityRate (paths : List (List Nat)) : ℚ :=
  let overlaps : Nat := ((List.range paths.length).map (fun t1 =>
    ((List.range paths.length).map (fun t2 =>
      if t1 ≠ t2 then
        if 1 < specMultisetInterLen (paths.getD t1 []) (paths.getD t2 [])
        then specMultisetInterLen (paths.getD t1 []) (paths.getD t2 []) - 1
        else 0
      else 0)).sum)).sum
  let course_count := (paths.getD 0 []).length
  let teams_per_course := paths.length / course_count
  let maximum_overlaps := (course_count - 1) * (course_count - 1) * teams_per_course
  (1 - (overlaps : ℚ) / (maximum_overlaps : ℚ)) ^ 2

/-- Six 3-course paths (teams 0 and 1 meet twice, everyone else never
overlaps): a valid shape with `team_count = 6`, `courses = 3`. -/
def c6Paths : List (List Nat) :=
  [[0, 1, 2], [0, 1, 3], [4, 5, 6], [7, 8, 9], [10, 11, 12], [13, 14, 15]]

/-- **C6, counterexample.** On `c6Paths` the code's score differs from the
reference definition of the claim: the code normalizes by
`(courses-1)^2 * team_count = 4 * 6 = 24` (its `teams_per_course_count`
variable holds the total team count), while the claim's reference uses
`(courses-1)^2 * (team_count / courses) = 4 * 2 = 8`; the overlap total is 2
in both. -/
theorem diversity_normalization_disagrees :
    diversityOverlaps c6Paths = 2 ∧
    diversityRate c6Paths = (11 / 12) ^ 2 ∧
    specDiversityRate c6Paths = (3 / 4) ^ 2 ∧
    diversityRate c6Paths ≠ specDiversityRate c6Paths := by
  have h1 : diversityOverlaps c6Paths = 2 := by decide
  have h1s : ((List.range c6Paths.length).map (fun t1 =>
      ((List.range c6Paths.length).map (fun t2 =>
        if t1 ≠ t2 then
          if 1 < specMultisetInterLen (c6Paths.getD t1 []) (c6Paths.getD t2 [])
          then specMultisetInterLen (c6Paths.getD t1 []) (c6Paths.getD t2 []) - 1
          else 0
        else 0)).sum)).sum = 2 := by decide
  refine ⟨h1, ?_, ?_, ?_⟩
  · rw [diversityRate, h1]
    norm_num [c6Paths]
  · rw [specDiversityRate, h1s]
    norm_num [c6Paths]
  · rw [diversityRate, specDiversityRate, h1, h1s]
    norm_num [c6Paths]

lemma counterInterLen_eq_card (p1 p2 : List Nat) :
    counterInterLen p1 p2 = (p1.toFinset ∩ p2.toFinset).card := by
  rw [counterInterLen]
  have hnd : (p1.dedup.filter (fun x => p2.contains x)).Nodup :=
    p1.nodup_dedup.filter _
  rw [← List.toFinset_card_of_nodup hnd]
  congr 1
  ext x
  simp [List.mem_filter, List.mem_dedup, Finset.mem_inter, List.elem_iff]

/-- The overlap total with the intersections expressed as finite-set
intersections (the reading the amended claim uses). -/
def finsetOverlaps (paths : List (List Nat)) : Nat :=
  ((List.range paths.length).map (fun t1 =>
    ((List.range paths.length).map (fun t2 =>
      if t1 ≠ t2 then
        if 1 < ((paths.getD t1 []).toFinset ∩ (paths.getD t2 []).toFinset).card
        then ((paths.getD t1 []).toFinset ∩ (paths.getD t2 []).toFinset).card - 1
        else 0
      else 0)).sum)).sum

/-- **C6, amended.** The diversity score is
`(1 - overlaps / ((courses-1)^2 * team_count))^2` — normalized by the *total*
team count (the code's `teams_per_course_count` variable holds
`len(paths_per_host)`), with each ordered pair of distinct teams contributing
`|paths1 ∩ paths2| - 1` (distinct common elements) whenever they share more
than one element; in particular the score is 1.0 whenever no two teams' paths
share more than one common element. -/
theorem diversity_rate_amended (paths : List (List Nat)) :
    diversityRate paths
      = (1 - (finsetOverlaps paths : ℚ)
          / ((((paths.getD 0 []).length - 1) * ((paths.getD 0 []).length - 1)
              * paths.length : Nat) : ℚ)) ^ 2 ∧
    ((∀ t1, t1 < paths.length → ∀ t2, t2 < paths.length → t1 ≠ t2 →
        ((paths.getD t1 []).toFinset ∩ (paths.getD t2 []).toFinset).card ≤ 1) →
      diversityRate paths = 1) := by
  have hov : diversityOverlaps paths = finsetOverlaps paths := by
    unfold diversityOverlaps finsetOverlaps
    simp only [counterInterLen_eq_card]
  constructor
  · rw [diversityRate, hov]
  · intro h
    have hz : finsetOverlaps paths = 0 := by
      unfold finsetOverlaps
      apply List.sum_eq_zero
      intro x hx
      rcases List.mem_map.1 hx with ⟨t1, ht1, hx1⟩
      rw [← hx1]
      apply List.sum_eq_zero
      intro y hy
      rcases List.mem_map.1 hy with ⟨t2, ht2, hy1⟩
      rw [← hy1]
      rw [List.mem_range] at ht1 ht2
      by_cases hne : t1 ≠ t2
      · rw [if_pos hne, if_neg (by have := h t1 ht1 t2 ht2 hne; omega)]
      · rw [if_neg hne]
    rw [diversityRate, hov, hz]
    norm_num

/-- Witness for the conditional part of `diversity_rate_amended`: the
repository's own "best case 2 courses" fixture scores 1. -/
theorem diversity_rate_amended_witness :
    diversityRate [[0, 1], [2, 1], [2, 3], [0, 3]] = 1 :=
  (diversity_rate_amended [[0, 1], [2, 1], [2, 3], [0, 3]]).2 (by decide)

/-!
### `FinalLocationDistanceSolutionRater` (lines 93-132 of `rating.py`)
-/

/-- Python `min` over a nonempty list (`min([])` raises; every use below keeps
the list nonempty). -/
def listMinQ : List ℚ → ℚ
  | [] => 0
  | x :: xs => xs.foldl min x

/-- Python `max` over a nonempty list. -/
def listMaxQ : List ℚ → ℚ
  | [] => 0
  | x :: xs => xs.foldl max x

/-- The bound-precomputation loops of the constructor (lines 102-115): for
`teams_per_course` rounds, pick the extreme value, remove its first
occurrence (`list.remove`), and add its square times `teams_per_course`. -/
def extremeSumLoop (pick : List ℚ → ℚ) : Nat → List ℚ → Nat → ℚ
  | 0, _, _ => 0
  | k + 1, tmp, tpc =>
    (pick tmp) ^ 2 * (tpc : ℚ) + extremeSumLoop pick k (tmp.erase (pick tmp)) tpc

/-- `self.min_squared_distance`. -/
def finalMinSquaredDistance (dist : List ℚ) (tpc : Nat) : ℚ :=
  extremeSumLoop listMinQ tpc dist tpc

/-- `self.max_squared_distance`. -/
def finalMaxSquaredDistance (dist : List ℚ) (tpc : Nat) : ℚ :=
  extremeSumLoop listMaxQ tpc dist tpc

/-- The loop of `rate_solution` (lines 124-128): sum of
`dist_to_final_loc[path[-1]] ** 2` over every team's path. -/
def finalSquaredDistance (dist : List ℚ) (paths : List (List Nat)) : ℚ :=
  (paths.map (fun p => (dist.getD (p.getD (p.length - 1) 0) 0) ^ 2)).sum

/-- `FinalLocationDistanceSolutionRater.rate_solution` (lines 117-132). -/
def finalLocationRate (dist : List ℚ) (tpc : Nat) (paths : List (List Nat)) : ℚ :=
  1 - (finalSquaredDistance dist paths - finalMinSquaredDistance dist tpc)
      / (finalMaxSquaredDistance dist tpc - finalMinSquaredDistance dist tpc)

/-!
### `InterDistanceSolutionRater` (lines 135-232 of `rating.py`)

`_find_distance_extremas` is a greedy scan: per "team group", pick the
extreme unused edge, then extend the chain `courses - 2` times.
`location`s are `Int`s because Python initializes them to `-1` (and `M[-1]`
would wrap around).  The MIN search starts from `sys.maxsize`, modelled as
the `none` sentinel that every real distance beats; should *no* candidate be
found, Python would add `sys.maxsize ** 2` where the model adds `0²` — with a
nonempty pool a candidate always exists, so the claims never reach that
corner.  The MAX search starts from the literal `0`, modelled exactly. -/

inductive ExtremaType where
  | MINIMUM
  | MAXIMUM
deriving DecidableEq

/-- `comparator(distance_extrema, candidate)` of lines 158-165. -/
def better (ty : ExtremaType) (cur : Option ℚ) (v : ℚ) : Bool :=
  match ty, cur with
  | _, none => true
  | .MINIMUM, some c => v < c
  | .MAXIMUM, some c => c < v

/-- `init_extrema_value`: `sys.maxsize` for MIN (sentinel), `0` for MAX. -/
def initExtrema : ExtremaType → Option ℚ
  | .MINIMUM => none
  | .MAXIMUM => some 0

/-- The value whose square is accumulated. -/
def extremaVal (cur : Option ℚ) : ℚ := cur.getD 0

/-- `self.distance_matrix[i][j]` with Python index semantics for possibly
negative `i` (out-of-range indices are modelled with a 0 default). -/
def mEntry (M : List (List ℚ)) (i : Int) (j : Nat) : ℚ :=
  let row := if i < 0 then M.getD (M.length - (-i).toNat) [] else M.getD i.toNat []
  row.getD j 0

/-- Lines 172-182: scan all unused ordered pairs for the extreme edge. -/
def findPairPhase (M : List (List ℚ)) (ty : ExtremaType) (used : List Int) :
    Option ℚ × Int × Int :=
  (List.range M.length).foldl (fun acc (l1 : Nat) =>
    if used.contains (l1 : Int) then acc
    else (List.range M.length).foldl (fun acc2 (l2 : Nat) =>
      if l1 ≠ l2 ∧ used.contains (l2 : Int) = false ∧ better ty acc2.1 (mEntry M l1 l2) = true
      then (some (mEntry M (l1 : Int) l2), (l1 : Int), (l2 : Int))
      else acc2) acc) (initExtrema ty, -1, -1)

/-- Lines 188-196: extend the current chain by one extreme step (when nothing
qualifies, `last_location` keeps its old value, which equals
`current_location`). -/
def chainStep (M : List (List ℚ)) (ty : ExtremaType) (used : List Int) (current : Int) :
    Option ℚ × Int :=
  (List.range M.length).foldl (fun acc (l2 : Nat) =>
    if current ≠ (l2 : Int) ∧ used.contains (l2 : Int) = false
        ∧ better ty acc.1 (mEntry M current l2) = true
    then (some (mEntry M current l2), (l2 : Int))
    else acc) (initExtrema ty, current)

/-- `InterDistanceSolutionRater._find_distance_extremas` (lines 148-199). -/
def findDistanceExtremas (M : List (List ℚ)) (courses : Nat) (ty : ExtremaType) : ℚ :=
  (courses : ℚ) * ((List.range (M.length / courses)).foldl (fun st _ =>
    let res := findPairPhase M ty st.2
    let used1 := st.2 ++ [res.2.1, res.2.2]
    let sum1 := st.1 + (extremaVal res.1) ^ 2
    let fin := (List.range (courses - 2)).foldl
      (fun st2 _ =>
        let res2 := chainStep M ty st2.2.1 st2.2.2
        (st2.1 + (extremaVal res2.1) ^ 2, st2.2.1 ++ [res2.2], res2.2))
      (sum1, used1, res.2.2)
    (fin.1, fin.2.1)) ((0 : ℚ), ([] : List Int))).1

/-- The loop of `InterDistanceSolutionRater.rate_solution` (lines 224-229):
sum of `M[path[i-1]][path[i]] ** 2` over consecutive path positions, over all
paths. -/
def interSquaredDistances (M : List (List ℚ)) (paths : List (List Nat)) : ℚ :=
  (paths.map (fun p => ((List.range (p.length - 1)).map (fun i =>
    ((M.getD (p.getD i 0) []).getD (p.getD (i + 1) 0) 0) ^ 2)).sum)).sum

/-- `InterDistanceSolutionRater.rate_solution` (lines 215-232): `ValueError`
when the matrix dimension differs from the path-map size. -/
def interDistanceRate (M : List (List ℚ)) (courses : Nat) (paths : List (List Nat)) :
    Except Unit ℚ :=
  if M.length ≠ paths.length then .error ()
  else .ok (1 - (interSquaredDistances M paths - findDistanceExtremas M courses .MINIMUM)
      / (findDistanceExtremas M courses .MAXIMUM - findDistanceExtremas M courses .MINIMUM))

/-- A valid 2-team, 2-course solution: team 0 hosts course 0, team 1 hosts
course 1, so both teams end the dinner at team 1's location. -/
def cSol7 : Solution := ⟨[[⟨0, [0]⟩], [⟨1, [0]⟩]]⟩

/-- **C7, counterexample.** Over the rater's own data — distance vector
`[0, 10]` of length `team_count = 2` and `teams_per_course = 2 teams / 2
courses = 1` — the decoded path map of the valid solution `cSol7` gets score
`-1` from `FinalLocationDistanceSolutionRater`: the precomputed "maximum"
assumes only `teams_per_course = 1` team ends at the selected worst location,
but `courses = 2` teams do, so the actual total (200) exceeds the bound (100)
and the score leaves `[0, 1]`. -/
theorem final_rater_score_outside_unit_interval :
    ValidSolution cSol7 ∧
    (getPathsPerHost cSol7).map Prod.snd = [[0, 1], [0, 1]] ∧
    finalLocationRate [0, 10] 1 ((getPathsPerHost cSol7).map Prod.snd) = -1 ∧
    ¬ (0 ≤ (-1 : ℚ) ∧ (-1 : ℚ) ≤ 1) := by
  have hpaths : (getPathsPerHost cSol7).map Prod.snd = [[0, 1], [0, 1]] := by decide
  refine ⟨by refine ⟨?_, ?_, ?_, ?_, ?_⟩ <;> decide, hpaths, ?_, by norm_num⟩
  rw [hpaths]
  norm_num [finalLocationRate, finalSquaredDistance, finalMinSquaredDistance,
    finalMaxSquaredDistance, extremeSumLoop, listMinQ, listMaxQ, min_def, max_def]

/-- **C7, amended.** Both distance raters score by
`1 - (actual - min)/(max - min)` against their precomputed greedy bounds:
whenever the bounds differ, the score is exactly `1.0` at a total equal to
the precomputed minimum and exactly `0.0` at a total equal to the precomputed
maximum — but the greedy bounds do not bound the achievable totals, so the
score is *not* in general within `[0, 1]`. -/
theorem rater_extreme_scores (dist : List ℚ) (tpc : Nat) (paths : List (List Nat))
    (M : List (List ℚ)) (courses : Nat) (paths2 : List (List Nat)) (r : ℚ)
    (hfm : finalMaxSquaredDistance dist tpc ≠ finalMinSquaredDistance dist tpc)
    (him : findDistanceExtremas M courses .MAXIMUM ≠ findDistanceExtremas M courses .MINIMUM)
    (hok : interDistanceRate M courses paths2 = .ok r) :
    (finalSquaredDistance dist paths = finalMinSquaredDistance dist tpc →
      finalLocationRate dist tpc paths = 1) ∧
    (finalSquaredDistance dist paths = finalMaxSquaredDistance dist tpc →
      finalLocationRate dist tpc paths = 0) ∧
    (interSquaredDistances M paths2 = findDistanceExtremas M courses .MINIMUM → r = 1) ∧
    (interSquaredDistances M paths2 = findDistanceExtremas M courses .MAXIMUM → r = 0) := by
  have hrok : r = 1 - (interSquaredDistances M paths2 - findDistanceExtremas M courses .MINIMUM)
      / (findDistanceExtremas M courses .MAXIMUM - findDistanceExtremas M courses .MINIMUM) := by
    unfold interDistanceRate at hok
    by_cases hlen : M.length ≠ paths2.length
    · rw [if_pos hlen] at hok; cases hok
    · rw [if_neg hlen] at hok
      injection hok with h
      exact h.symm
  refine ⟨?_, ?_, ?_, ?_⟩
  · intro h
    rw [finalLocationRate, h]
    simp
  · intro h
    rw [finalLocationRate, h, div_self (sub_ne_zero.2 hfm)]
    ring
  · intro h
    rw [hrok, h]
    simp
  · intro h
    rw [hrok, h, div_self (sub_ne_zero.2 him)]
    ring

/-- Witness for `rater_extreme_scores`: `dist = [0, 10]`, `tpc = 1`,
`M = [[0, 1], [2, 0]]`, `courses = 2`, both-paths-`[0, 1]`, whose actual
inter-distance total equals the greedy minimum, so the score is `1`. -/
theorem rater_extreme_scores_witness :
    (finalSquaredDistance [0, 10] [[0, 0], [0, 0]] = finalMinSquaredDistance [0, 10] 1 →
      finalLocationRate [0, 10] 1 [[0, 0], [0, 0]] = 1) ∧
    (finalSquaredDistance [0, 10] [[0, 0], [0, 0]] = finalMaxSquaredDistance [0, 10] 1 →
      finalLocationRate [0, 10] 1 [[0, 0], [0, 0]] = 0) ∧
    (interSquaredDistances [[0, 1], [2, 0]] [[0, 1], [0, 1]]
        = findDistanceExtremas [[0, 1], [2, 0]] 2 .MINIMUM → (1 : ℚ) = 1) ∧
    (interSquaredDistances [[0, 1], [2, 0]] [[0, 1], [0, 1]]
        = findDistanceExtremas [[0, 1], [2, 0]] 2 .MAXIMUM → (1 : ℚ) = 0) := by
  have hmin : findDistanceExtremas [[0, 1], [2, 0]] 2 .MINIMUM = 2 := by
    norm_num [findDistanceExtremas, findPairPhase, chainStep, better, initExtrema,
      extremaVal, mEntry, List.range_succ]
  have hmax : findDistanceExtremas [[0, 1], [2, 0]] 2 .MAXIMUM = 8 := by
    norm_num [findDistanceExtremas, findPairPhase, chainStep, better, initExtrema,
      extremaVal, mEntry, List.range_succ]
  have hsq : interSquaredDistances [[0, 1], [2, 0]] [[0, 1], [0, 1]] = 2 := by
    norm_num [interSquaredDistances, List.range_succ]
  have hok : interDistanceRate [[0, 1], [2, 0]] 2 [[0, 1], [0, 1]] = .ok 1 := by
    rw [interDistanceRate, if_neg (by norm_num), hmin, hmax, hsq]
    norm_num
  exact rater_extreme_scores [0, 10] 1 [[0, 0], [0, 0]] [[0, 1], [2, 0]] 2 [[0, 1], [0, 1]] 1
    (by norm_num [finalMinSquaredDistance, finalMaxSquaredDistance, extremeSumLoop,
      listMinQ, listMaxQ, min_def, max_def])
    (by rw [hmin, hmax]; norm_num)
    hok

end RunningDinner
